import Mathlib

/-!
Shallow embedding of `tools/wikidata.py` (EU5-1444-Start-Date), the
genealogy-graph construction engine: person resolution, the liveness
predicate, identifier allocation, ancestor/descendant collection, lineage
completion, topological (parents-first) emission and record rendering.

Python strings are modelled as Lean `String` viewed through its `data`
field (a `List Char`); Python string primitives (`strip`, `rsplit`,
`split`, slicing, `startswith`, `lower`) are re-implemented below at the
`List Char` level so that concrete runs evaluate by `decide`/`rfl`.
Python exceptions are `Except String`; recursion that Python bounds only
by mutated visited sets is given an explicit fuel parameter, with `none`
meaning the run did not finish within that fuel.
-/

/-- Python `str.strip()`: drop whitespace from both ends. -/
def pyStrip (s : String) : String :=
  String.mk (((s.data.dropWhile Char.isWhitespace).reverse.dropWhile Char.isWhitespace).reverse)

/-- Python `s.rsplit("/", 1)[-1]`: the part of `s` after the last `/`
(all of `s` when it has no `/`). -/
def rsplitLastSlash (s : String) : String :=
  String.mk ((s.data.reverse.takeWhile (fun c => c ≠ '/')).reverse)

/-- Python `s.startswith(p)`. -/
def pyStartsWith (s p : String) : Bool :=
  p.data.isPrefixOf s.data

/-- Python `s.lower()` (exact on ASCII, which is all the engine compares). -/
def pyLower (s : String) : String :=
  String.mk (s.data.map Char.toLower)

/-- Python `s[:10]`: the first ten characters (fewer when `s` is shorter). -/
def pySlice10 (s : String) : String :=
  String.mk (s.data.take 10)

/-- Python `s.split(sep)` for a one-character separator, on `List Char`. -/
def splitOnChar (c : Char) : List Char → List (List Char)
  | [] => [[]]
  | x :: xs =>
    match splitOnChar c xs with
    | [] => [[]]
    | h :: t => if x = c then [] :: h :: t else (x :: h) :: t

/-- Split at every character satisfying `p` (used for `re.split(r"\s+")`,
whose empty fragments the callers discard). -/
def splitOnPred (p : Char → Bool) : List Char → List (List Char)
  | [] => [[]]
  | x :: xs =>
    match splitOnPred p xs with
    | [] => [[]]
    | h :: t => if p x then [] :: h :: t else (x :: h) :: t

/-- Python truthiness of an optional string: `None` and `""` are falsy. -/
def pyOpt : Option String → Option String
  | some "" => none
  | o => o

/-- The regular expression `Q\d+` of `normalize_qid` / `fetch_children_qids`:
a `Q` followed by one or more digits. -/
def isQidFormat (s : String) : Bool :=
  match s.data with
  | 'Q' :: rest => !rest.isEmpty && rest.all Char.isDigit
  | _ => false

/-- `normalize_qid`: strip, drop a URL prefix, and validate against `Q\d+`;
a failed validation is Python's `raise ValueError(f"Invalid QID: {qid}")`. -/
def normalize_qid (qid : String) : Except String String :=
  let q := pyStrip qid
  let q := if pyStartsWith q "http" then rsplitLastSlash q else q
  if isQidFormat q then .ok q else .error ("Invalid QID: " ++ q)

/-- A calendar date as `datetime.date`: year, month, day. -/
structure Date where
  y : Nat
  m : Nat
  d : Nat
deriving DecidableEq, Repr

/-- Python `date` strict comparison (calendar = lexicographic order). -/
def dateLt (a b : Date) : Bool :=
  decide (a.y < b.y ∨ (a.y = b.y ∧ (a.m < b.m ∨ (a.m = b.m ∧ a.d < b.d))))

/-- Python `date` non-strict comparison. -/
def dateLe (a b : Date) : Bool :=
  dateLt a b || decide (a = b)

/-- `CUTOFF_DATE = date(1444, 11, 11)`. -/
def CUTOFF_DATE : Date := ⟨1444, 11, 11⟩

/-- Leap-year rule of the proleptic Gregorian calendar used by `datetime`. -/
def isLeapYear (y : Nat) : Bool :=
  decide (y % 4 = 0) && (decide (y % 100 ≠ 0) || decide (y % 400 = 0))

/-- Days in a month, as validated by the `datetime.date` constructor. -/
def daysInMonth (y m : Nat) : Nat :=
  if m = 2 then (if isLeapYear y then 29 else 28)
  else if m = 4 ∨ m = 6 ∨ m = 9 ∨ m = 11 then 30 else 31

/-- The numeric value of a digit string. -/
def digitsVal (l : List Char) : Nat :=
  l.foldl (fun a c => a * 10 + (c.toNat - '0'.toNat)) 0

/-- `datetime.strptime(s, "%Y-%m-%d").date()`, `None` for `ValueError`:
exactly three `-`-separated digit groups (`%Y` exactly four digits, `%m` and
`%d` one or two), the whole string consumed, and the values a valid
`datetime.date` (year 1–9999, month 1–12, day within the month). -/
def strptimeYmd (s : String) : Option Date :=
  match splitOnChar '-' s.data with
  | [ys, ms, ds] =>
    if ys.length = 4 ∧ ys.all Char.isDigit ∧
       1 ≤ ms.length ∧ ms.length ≤ 2 ∧ ms.all Char.isDigit ∧
       1 ≤ ds.length ∧ ds.length ≤ 2 ∧ ds.all Char.isDigit then
      let y := digitsVal ys
      let m := digitsVal ms
      let d := digitsVal ds
      if 1 ≤ y ∧ y ≤ 9999 ∧ 1 ≤ m ∧ m ≤ 12 ∧ 1 ≤ d ∧ d ≤ daysInMonth y m then
        some ⟨y, m, d⟩
      else none
    else none
  | _ => none

/-- `parse_iso_date`: `None`/empty is absent; otherwise parse the first ten
characters, absent on failure; the source's final `dt.year <= 0` guard is
`dt.y = 0` here because the modelled year is a natural number. -/
def parse_iso_date : Option String → Option Date
  | none => none
  | some s =>
    if s = "" then none
    else
      match strptimeYmd (pySlice10 s) with
      | none => none
      | some dt => if dt.y = 0 then none else some dt

/-- `iso_to_eu_date`: like `parse_iso_date` but rendering `year.month.day`. -/
def iso_to_eu_date : Option String → Option String
  | none => none
  | some s =>
    if s = "" then none
    else
      match strptimeYmd (pySlice10 s) with
      | none => none
      | some dt =>
        if dt.y = 0 then none
        else some (toString dt.y ++ "." ++ toString dt.m ++ "." ++ toString dt.d)

/-- The `Person` dataclass. -/
structure Person where
  qid : String
  label_en : Option String
  label_ja : Option String
  birth : Option String
  death : Option String
  father_qid : Option String
  mother_qid : Option String
  birth_place_en : Option String
deriving DecidableEq, Repr

/-- `is_alive_on(person, on_date, require_birth)`. -/
def is_alive_on (person : Person) (on_date : Date) (require_birth : Bool) : Bool :=
  let birth := parse_iso_date person.birth
  let death := parse_iso_date person.death
  if require_birth && birth.isNone then false
  else if (match birth with | some b => dateLt on_date b | none => false) then false
  else if (match death with | some d => dateLe d on_date | none => false) then false
  else true

/-- `slugify_to_token`: lowercase, collapse non-`[a-z0-9]` runs to single
underscores, strip them from the ends, `"unknown"` when empty. The NFKD
decomposition and combining-mark stripping of the source are modelled as
the identity, which is exact on ASCII input. -/
def slugChar (c : Char) : Char :=
  if ('a' ≤ c ∧ c ≤ 'z') ∨ ('0' ≤ c ∧ c ≤ '9') then c else '_'

/-- Collapse runs of `_` to a single `_` (the `re.sub(r"_+", "_", ...)`). -/
def collapseUnderscores : List Char → List Char
  | [] => []
  | [c] => [c]
  | a :: b :: rest =>
    if a = '_' ∧ b = '_' then collapseUnderscores (b :: rest)
    else a :: collapseUnderscores (b :: rest)

def slugify_to_token (value : String) : String :=
  let lowered := (pyLower value).data.map slugChar
  let collapsed := collapseUnderscores lowered
  let stripped := ((collapsed.dropWhile (fun c => c = '_')).reverse.dropWhile
      (fun c => c = '_')).reverse
  if stripped.isEmpty then "unknown" else String.mk stripped

/-- `make_character_id_from_person(person, id_prefix)`. -/
def make_character_id_from_person (person : Person) (idPre : String) : String :=
  let label := pyStrip (person.label_en.getD "")
  if label ≠ "" then idPre ++ slugify_to_token label
  else idPre ++ pyLower person.qid

/-- `extract_given_name(label)`: last whitespace-separated part. -/
def extract_given_name (label : String) : String :=
  let label := pyStrip label
  if label = "" then ""
  else
    let parts := (splitOnPred Char.isWhitespace label.data).map String.mk |>.filter (· ≠ "")
    (parts.getLastD "")

/-- `make_name_token(person, name_prefix, fallback_prefix)`. -/
def make_name_token (person : Person) (namePre fallbackPre : String) : String :=
  let base := pyStrip (person.label_en.getD "")
  if base ≠ "" then
    let given := extract_given_name base
    if given ≠ "" then namePre ++ slugify_to_token given
    else namePre ++ slugify_to_token base
  else fallbackPre ++ pyLower person.qid

/-- One SPARQL result binding for the person query: the optional `value`
of each selected variable (`None` when the key is missing). -/
structure PBinding where
  labelEn : Option String
  labelJa : Option String
  birth : Option String
  death : Option String
  father : Option String
  mother : Option String
  birthPlaceLabelEn : Option String
deriving DecidableEq, Repr

/-- A `Person` with every optional field absent (the query-failure result). -/
def emptyPerson (qid : String) : Person :=
  ⟨qid, none, none, none, none, none, none, none⟩

/-- Build the `Person` from the first binding, as lines 163-184 of the
source: dates truncated to ten characters, parent URIs cut after the last
slash, each guarded by Python truthiness. -/
def personOfBinding (qid : String) (b : PBinding) : Person :=
  { qid := qid
    label_en := b.labelEn
    label_ja := b.labelJa
    birth := (pyOpt b.birth).map pySlice10
    death := (pyOpt b.death).map pySlice10
    father_qid := (pyOpt b.father).map rsplitLastSlash
    mother_qid := (pyOpt b.mother).map rsplitLastSlash
    birth_place_en := b.birthPlaceLabelEn }

/-- `fetch_person(qid)`, with the oracle's reply passed explicitly:
`none` is any query failure (network, parse), and an empty binding list is
the `IndexError` of `bindings[0]` — both degrade to `emptyPerson`.
Only `normalize_qid` can fail. -/
def fetch_person (qid : String) (resp : Option (List PBinding)) : Except String Person :=
  match normalize_qid qid with
  | .error e => .error e
  | .ok q =>
    match resp with
    | none => .ok (emptyPerson q)
    | some [] => .ok (emptyPerson q)
    | some (b :: _) => .ok (personOfBinding q b)

/-- `fetch_children_qids(qid)`: each binding's optional `child` value; a
falsy value is skipped, the URI is cut after the last slash, and only
tokens matching `Q\d+` are kept, in response order (the query asks the
*server* to order with `ORDER BY ?child`; the caller does not sort). -/
def fetch_children_qids (qid : String) (resp : Option (List (Option String))) :
    Except String (List String) :=
  match normalize_qid qid with
  | .error e => .error e
  | .ok _q =>
    match resp with
    | none => .ok []
    | some bindings =>
      .ok (bindings.foldl (fun acc b =>
        match pyOpt b with
        | none => acc
        | some child =>
          let child_qid := rsplitLastSlash child
          if isQidFormat child_qid then acc ++ [child_qid] else acc) [])

/-- `get_person` of the emitter closure: normalize, then fetch (the
per-run cache is invisible here because the oracle is a function). -/
def get_person (presp : String → Option (List PBinding)) (qid : String) :
    Except String Person :=
  match normalize_qid qid with
  | .error e => .error e
  | .ok q => fetch_person q (presp q)

/-- State of the identifier allocator: `qid_to_char_id` and
`used_char_ids`, insertion-ordered association lists. -/
structure AllocSt where
  qid_to_char_id : List (String × String)
  used_char_ids : List (String × String)
deriving DecidableEq, Repr

/-- Lookup in an insertion-ordered association list (`dict.get`). -/
def assocLookup (l : List (String × String)) (k : String) : Option String :=
  match l with
  | [] => none
  | (k', v) :: rest => if k' = k then some v else assocLookup rest k

/-- `d[k] = v` on an association list: overwrite or append. -/
def assocSet (l : List (String × String)) (k v : String) : List (String × String) :=
  match l with
  | [] => [(k, v)]
  | (k', v') :: rest => if k' = k then (k, v) :: rest else (k', v') :: assocSet rest k v

/-- `id_for_qid(qid)`: memoized; candidate from the label (or lowercased
qid), suffixed with `_` + lowercased qid when the candidate is already
used by a different external identifier; both maps updated. -/
def id_for_qid (presp : String → Option (List PBinding)) (idPre : String)
    (st : AllocSt) (qid : String) : Except String (String × AllocSt) :=
  match normalize_qid qid with
  | .error e => .error e
  | .ok q =>
    match assocLookup st.qid_to_char_id q with
    | some c => .ok (c, st)
    | none =>
      match get_person presp q with
      | .error e => .error e
      | .ok person =>
        let candidate := make_character_id_from_person person idPre
        let candidate :=
          match assocLookup st.used_char_ids candidate with
          | some existing =>
            if existing ≠ "" ∧ existing ≠ q then candidate ++ "_" ++ pyLower q
            else candidate
          | none => candidate
        .ok (candidate,
          { qid_to_char_id := st.qid_to_char_id ++ [(q, candidate)]
            used_char_ids := assocSet st.used_char_ids candidate q })

/-- The configuration threaded through `emit_person_with_ancestors_and_descendants`
(CLI options except depths and flags). -/
structure RenderCfg where
  idPre : String
  namePre : String
  nameFallbackPre : String
  culture : String
  religion : String
  dynasty : Option String
  tag : Option String
  birth_location : Option String
deriving DecidableEq, Repr

/-- Python `known_qids is None or person.mother_qid in known_qids`. -/
def inKnown (knownQids : Option (List String)) (m : String) : Bool :=
  match knownQids with
  | none => true
  | some ks => decide (m ∈ ks)

/-- The `father =` / `mother =` reference lines of
`render_character_entry`, threading the allocator state: a father line
whenever `person.father_qid` is truthy, a mother line only when
`person.mother_qid` is truthy and (no `known_qids` was passed or the
mother's external identifier is a member of it). -/
def parentRefLines (presp : String → Option (List PBinding)) (idPre : String)
    (st : AllocSt) (person : Person) (knownQids : Option (List String)) :
    Except String (List String × AllocSt) :=
  match pyOpt person.father_qid with
  | some f =>
    (match id_for_qid presp idPre st f with
     | .error e => .error e
     | .ok (fid, st1) =>
       match pyOpt person.mother_qid with
       | some m =>
         if inKnown knownQids m then
           match id_for_qid presp idPre st1 m with
           | .error e => .error e
           | .ok (mid, st2) =>
             .ok (["        father = " ++ fid, "        mother = " ++ mid], st2)
         else .ok (["        father = " ++ fid], st1)
       | none => .ok (["        father = " ++ fid], st1))
  | none =>
    match pyOpt person.mother_qid with
    | some m =>
      if inKnown knownQids m then
        match id_for_qid presp idPre st m with
        | .error e => .error e
        | .ok (mid, st1) => .ok (["        mother = " ++ mid], st1)
      else .ok ([], st)
    | none => .ok ([], st)

/-- The comment appended to the block header: the secondary-locale label
when truthy, then the external identifier. -/
def header_comment_str (person : Person) : String :=
  (match pyOpt person.label_ja with
   | some ja => " # " ++ ja
   | none => "") ++ " (" ++ person.qid ++ ")"

/-- The optional `birth_date` line. -/
def birth_date_lines (person : Person) : List String :=
  match iso_to_eu_date person.birth with
  | some eu => ["        birth_date = " ++ eu]
  | none => []

/-- The optional `death_date` line, omitted when the death falls after
the cutoff date. -/
def death_date_lines (person : Person) : List String :=
  match iso_to_eu_date person.death, parse_iso_date person.death with
  | some eu, some dt =>
    if dateLe dt CUTOFF_DATE then ["        death_date = " ++ eu] else []
  | _, _ => []

/-- The optional birth-location line (configured token, else a comment
carrying the source birthplace). -/
def birth_loc_lines (cfg : RenderCfg) (person : Person) : List String :=
  match pyOpt cfg.birth_location with
  | some loc => ["        birth = " ++ loc]
  | none =>
    match pyOpt person.birth_place_en with
    | some pl => ["        # birth = <TODO>  # Wikidata birthplace: " ++ pl]
    | none => []

/-- The optional `dynasty` line. -/
def dynasty_lines (cfg : RenderCfg) : List String :=
  match pyOpt cfg.dynasty with
  | some dy => ["        dynasty = " ++ dy]
  | none => []

/-- The optional `tag` line. -/
def tag_lines (cfg : RenderCfg) : List String :=
  match pyOpt cfg.tag with
  | some tg => ["        tag = " ++ tg]
  | none => []

/-- `render_character_entry`, producing the block as its list of lines
(the source joins them with newlines) and the updated allocator state. -/
def render_character_entry (cfg : RenderCfg) (presp : String → Option (List PBinding))
    (st : AllocSt) (person : Person) (char_id : String)
    (includeParentRefs : Bool) (knownQids : Option (List String)) :
    Except String (List String × AllocSt) :=
  let nameTok := make_name_token person cfg.namePre cfg.nameFallbackPre
  let baseLines :=
    ["    " ++ char_id ++ " = \x7b" ++ header_comment_str person,
     "        first_name = \x7b name = " ++ nameTok ++ " \x7d",
     "        culture = " ++ cfg.culture,
     "        religion = " ++ cfg.religion]
  match (if includeParentRefs then parentRefLines presp cfg.idPre st person knownQids
         else .ok ([], st)) with
  | .error e => .error e
  | .ok (parentLines, st') =>
    .ok (baseLines ++ birth_date_lines person ++ death_date_lines person ++
          birth_loc_lines cfg person ++ dynasty_lines cfg ++
          parentLines ++ tag_lines cfg ++ ["    \x7d"], st')

/-- State of the ancestor collector: `visited_ancestors`, the included
`ancestor_qids`, and (instrumentation, not in the source) a trace of each
expansion as the pair (normalized identifier, depth), appended exactly when
the identifier passes the visited guard and is fetched. -/
structure AncState where
  visited : List String
  included : List String
  trace : List (String × Nat)
deriving DecidableEq, Repr

/-- `gather_ancestors(qid, depth)`: visited-guarded, includes the root
when `include_root_entry` and deeper nodes when alive with
`require_birth=True`, stops recursing at the depth bound, otherwise
recurses into truthy father then mother. Structural fuel bounds the
recursion nesting; `none` means the fuel ran out (the Python recursion
nests at most `max_ancestor_depth + 1` deep, see
`gather_ancestors_fuel_sufficient`). -/
def gather_ancestors (presp : String → Option (List PBinding))
    (includeRootEntry : Bool) (maxD : Nat) :
    Nat → String → Nat → AncState → Option (Except String AncState)
  | 0, _, _, _ => none
  | fuel + 1, qid, depth, st =>
    match normalize_qid qid with
    | .error e => some (.error e)
    | .ok q =>
      if q ∈ st.visited then some (.ok st)
      else
        match get_person presp q with
        | .error e => some (.error e)
        | .ok person =>
          let st2 : AncState :=
            { visited := st.visited ++ [q],
              included :=
                if depth = 0 then
                  (if includeRootEntry then st.included ++ [q] else st.included)
                else
                  (if is_alive_on person CUTOFF_DATE true then st.included ++ [q]
                  else st.included),
              trace := st.trace ++ [(q, depth)] }
          if maxD ≤ depth then some (.ok st2)
          else
            match (match pyOpt person.father_qid with
                   | some f => gather_ancestors presp includeRootEntry maxD fuel f (depth + 1) st2
                   | none => some (.ok st2)) with
            | none => none
            | some (.error e) => some (.error e)
            | some (.ok st3) =>
              match pyOpt person.mother_qid with
              | some m => gather_ancestors presp includeRootEntry maxD fuel m (depth + 1) st3
              | none => some (.ok st3)

/-- State of the descendant collector: the included `descendant_qids` and
(instrumentation, not in the source) a trace of each expansion — each
`fetch_children_qids` call — as the pair (identifier, remaining depth). -/
structure DescState where
  descendants : List String
  trace : List (String × Nat)
deriving DecidableEq, Repr

/-- `gather_descendants_alive(qid, depth_remaining)`: returns at zero,
otherwise fetches the children of `qid` and, for each child in order,
skips it when it fails the liveness filter or is already included, and
otherwise includes it and recurses with one less remaining generation.
Structural in the remaining depth, so no fuel is needed. -/
def gather_descendants_alive (presp : String → Option (List PBinding))
    (cresp : String → Option (List (Option String))) (reqBirth : Bool) :
    Nat → String → DescState → Except String DescState
  | 0, _, st => .ok st
  | d + 1, qid, st =>
    let st0 : DescState := { st with trace := st.trace ++ [(qid, d + 1)] }
    match fetch_children_qids qid (cresp qid) with
    | .error e => .error e
    | .ok children =>
      children.foldlM (fun (st : DescState) child =>
        match get_person presp child with
        | .error e => .error e
        | .ok childP =>
          if !is_alive_on childP CUTOFF_DATE reqBirth then .ok st
          else if childP.qid ∈ st.descendants then .ok st
          else
            gather_descendants_alive presp cresp reqBirth d childP.qid
              { st with descendants := st.descendants ++ [childP.qid] }) st0

/-- One round of the "ensure fathers" completion (lines 377-384): for each
frontier member in order, resolve its father; a truthy father not yet in
`all_qids` is added unconditionally (no liveness check) to both `all_qids`
and the next frontier. -/
def ensure_fathers_round (presp : String → Option (List PBinding))
    (frontier allQids : List String) :
    Except String (List String × List String) :=
  frontier.foldlM (fun (acc : List String × List String) qid =>
    match get_person presp qid with
    | .error e => .error e
    | .ok person =>
      match pyOpt person.father_qid with
      | some f =>
        if f ∈ acc.1 then .ok acc else .ok (acc.1 ++ [f], acc.2 ++ [f])
      | none => .ok acc) (allQids, [])

/-- The `ensure_fathers_depth` loop: at most `n` rounds, stopping early
when a round adds nothing. -/
def ensure_fathers (presp : String → Option (List PBinding)) :
    Nat → List String → List String → Except String (List String)
  | 0, _, allQids => .ok allQids
  | n + 1, frontier, allQids =>
    match ensure_fathers_round presp frontier allQids with
    | .error e => .error e
    | .ok (all', next) => if next = [] then .ok all' else ensure_fathers presp n next all'

/-- State of the emission phase: the allocator maps and the printed
entries in order, each as (normalized identifier, rendered lines); the
Emitted Set is the set of first components, grown exactly when an entry
is printed. -/
structure EmitSt where
  alloc : AllocSt
  out : List (String × List String)
deriving DecidableEq, Repr

/-- The printed identifiers, in print order. -/
def emittedQids (st : EmitSt) : List String :=
  st.out.map Prod.fst

/-- `emit_parents_first(qid)`: return if already emitted; otherwise first
recurse into each truthy parent that is a member of `all_qids` (father,
then mother), then render and print this entry. The Emitted Set is
extended only *after* the recursion, exactly as in the source. Fuel
bounds the recursion nesting; `none` means the fuel ran out — which, for
cyclic parent data, it does for every fuel. -/
def emit_parents_first (presp : String → Option (List PBinding)) (cfg : RenderCfg)
    (allQids : List String) :
    Nat → EmitSt → String → Option (Except String EmitSt)
  | 0, _, _ => none
  | fuel + 1, st, qid =>
    match normalize_qid qid with
    | .error e => some (.error e)
    | .ok q =>
      if q ∈ emittedQids st then some (.ok st)
      else
        match get_person presp q with
        | .error e => some (.error e)
        | .ok person =>
          match (match pyOpt person.father_qid with
                 | some f =>
                   if f ∈ allQids then emit_parents_first presp cfg allQids fuel st f
                   else some (.ok st)
                 | none => some (.ok st)) with
          | none => none
          | some (.error e) => some (.error e)
          | some (.ok st1) =>
            match (match pyOpt person.mother_qid with
                   | some m =>
                     if m ∈ allQids then emit_parents_first presp cfg allQids fuel st1 m
                     else some (.ok st1)
                   | none => some (.ok st1)) with
            | none => none
            | some (.error e) => some (.error e)
            | some (.ok st2) =>
              match id_for_qid presp cfg.idPre st2.alloc person.qid with
              | .error e => some (.error e)
              | .ok (charId, alloc1) =>
                match render_character_entry cfg presp alloc1
                    person charId true (some allQids) with
                | .error e => some (.error e)
                | .ok (lines, alloc2) =>
                  some (.ok { alloc := alloc2, out := st2.out ++ [(q, lines)] })

/-- Run `emit_parents_first` over a list of start identifiers in order
(the top-level loops of lines 421-427). -/
def emit_all (presp : String → Option (List PBinding)) (cfg : RenderCfg)
    (allQids : List String) (fuel : Nat) :
    List String → EmitSt → Option (Except String EmitSt)
  | [], st => some (.ok st)
  | q :: qs, st =>
    match emit_parents_first presp cfg allQids fuel st q with
    | none => none
    | some (.error e) => some (.error e)
    | some (.ok st') => emit_all presp cfg allQids fuel qs st'

/-- Python `sorted` on strings: code-point lexicographic order. -/
def charListLe : List Char → List Char → Bool
  | [], _ => true
  | _ :: _, [] => false
  | a :: as, b :: bs =>
    if a.toNat < b.toNat then true
    else if b.toNat < a.toNat then false
    else charListLe as bs

def strLe (a b : String) : Bool := charListLe a.data b.data

def insertSorted (x : String) : List String → List String
  | [] => [x]
  | y :: ys => if strLe x y then x :: y :: ys else y :: insertSorted x ys

/-- Stable ascending sort (Python `sorted` over a set of identifiers). -/
def sortStrs : List String → List String
  | [] => []
  | x :: xs => insertSorted x (sortStrs xs)

/-- The depth/flag configuration of
`emit_person_with_ancestors_and_descendants`. -/
structure PipeCfg where
  render : RenderCfg
  max_ancestor_depth : Nat
  max_descendant_depth : Nat
  ensure_fathers_depth : Nat
  include_root_if_not_alive : Bool
  descendants_require_birth : Bool
deriving Repr

/-- Everything observable about one run of the pipeline. -/
structure PipeResult where
  includeRootEntry : Bool
  ancestor_qids : List String
  descendant_qids : List String
  all_qids : List String
  output : List (String × List String)
deriving DecidableEq, Repr

/-- `emit_person_with_ancestors_and_descendants(root_qid, ...)`:
normalize the root, decide root inclusion, gather ancestors, gather
descendants only when the root is included, union the sets, complete
fathers, then emit — the root's chain first and each descendant in sorted
order when the root is included, otherwise each gathered ancestor in
sorted order. `fuel` bounds both recursive phases. -/
def emit_person_with_ancestors_and_descendants
    (presp : String → Option (List PBinding))
    (cresp : String → Option (List (Option String)))
    (cfg : PipeCfg) (root : String) (fuel : Nat) :
    Option (Except String PipeResult) :=
  match normalize_qid root with
  | .error e => some (.error e)
  | .ok rootQ =>
    match get_person presp rootQ with
    | .error e => some (.error e)
    | .ok rootP =>
      let rootAlive := is_alive_on rootP CUTOFF_DATE false
      let includeRootEntry := cfg.include_root_if_not_alive || rootAlive
      match gather_ancestors presp includeRootEntry cfg.max_ancestor_depth fuel
          rootQ 0 ⟨[], [], []⟩ with
      | none => none
      | some (.error e) => some (.error e)
      | some (.ok ancSt) =>
        match (if includeRootEntry then
                gather_descendants_alive presp cresp cfg.descendants_require_birth
                  cfg.max_descendant_depth rootQ ⟨[], []⟩
              else .ok ⟨[], []⟩) with
        | .error e => some (.error e)
        | .ok descSt =>
          let allQids0 := ancSt.included ++
            descSt.descendants.filter (fun q => q ∉ ancSt.included)
          match ensure_fathers presp cfg.ensure_fathers_depth allQids0 allQids0 with
          | .error e => some (.error e)
          | .ok allQids =>
            let starts :=
              if includeRootEntry then rootQ :: sortStrs descSt.descendants
              else sortStrs ancSt.included
            match emit_all presp cfg.render allQids fuel starts ⟨⟨[], []⟩, []⟩ with
            | none => none
            | some (.error e) => some (.error e)
            | some (.ok emitSt) =>
              some (.ok { includeRootEntry := includeRootEntry,
                          ancestor_qids := ancSt.included,
                          descendant_qids := descSt.descendants,
                          all_qids := allQids,
                          output := emitSt.out })

/-! ## Concrete oracles and observation helpers used by the theorems -/

/-- Build a person binding from the commonly varied fields. -/
def mkBinding (label father birth death : Option String) : PBinding :=
  ⟨label, none, birth, death, father, none, none⟩

/-- An oracle whose every person has no children. -/
def noChildren : String → Option (List (Option String)) := fun _ => some []

/-- The render configuration with the CLI defaults. -/
def defaultRender : RenderCfg :=
  ⟨"wd_", "name_", "name_q", "saigoku_culture", "shinto", none, none, none⟩

/-- A living root `Q1` whose father `Q2` and grandfather `Q3` are dead on
the cutoff (excluded), while the great-grandfather `Q4` is alive: `Q4`
enters the Inclusion Set but is separated from the root by excluded
links. -/
def oracleGap : String → Option (List PBinding)
  | "Q1" => some [mkBinding (some "Alpha") (some "Q2") (some "1400-01-01") none]
  | "Q2" => some [mkBinding (some "Beta") (some "Q3") (some "1250-01-01") (some "1300-01-01")]
  | "Q3" => some [mkBinding (some "Gamma") (some "Q4") (some "1220-01-01") (some "1290-01-01")]
  | "Q4" => some [mkBinding (some "Delta") none (some "1380-01-01") none]
  | _ => none

/-- Cyclic parent data: `Q1` and `Q2` are each other's father, both alive. -/
def oracleCyc : String → Option (List PBinding)
  | "Q1" => some [mkBinding (some "Alpha") (some "Q2") (some "1400-01-01") none]
  | "Q2" => some [mkBinding (some "Beta") (some "Q1") (some "1400-01-01") none]
  | _ => none

/-- A valid root whose father value holds the malformed identifier `X2`. -/
def oracleBad : String → Option (List PBinding)
  | "Q1" => some [mkBinding (some "Alpha") (some "http://x/X2") (some "1400-01-01") none]
  | _ => none

/-- Labels chosen so that `Q5`'s suffixed token collides with `Q9`'s
natural token: `slugify("Foo") = foo`, `slugify("Foo Q5") = foo_q5`. -/
def oracleAlloc : String → Option (List PBinding)
  | "Q3" => some [mkBinding (some "Foo") none none none]
  | "Q9" => some [mkBinding (some "Foo Q5") none none none]
  | "Q5" => some [mkBinding (some "Foo") none none none]
  | _ => none

/-- A three-generation chain, all alive on the cutoff: grandfather `Q1`,
father `Q2`, child `Q3`. -/
def oracleChain : String → Option (List PBinding)
  | "Q1" => some [mkBinding (some "Grandfather") none (some "1380-01-01") none]
  | "Q2" => some [mkBinding (some "Father") (some "Q1") (some "1400-01-01") none]
  | "Q3" => some [mkBinding (some "Child") (some "Q2") (some "1420-01-01") none]
  | _ => none

/-- The pipeline configuration used by the concrete runs: depths 6,
lineage completion disabled, dead roots skipped, descendants require a
birth date. -/
def cfgPlain : PipeCfg := ⟨defaultRender, 6, 6, 0, false, true⟩

/-- What one `fetch_children_qids` binding contributes to the result. -/
def extractChild (b : Option String) : Option String :=
  (pyOpt b).bind (fun child =>
    let child_qid := rsplitLastSlash child
    if isQidFormat child_qid then some child_qid else none)

/-- `q` is a parent (father or mother, by Python truthiness) of the
person the oracle returns for `x`. -/
def isParentOf (presp : String → Option (List PBinding)) (x f : String) : Prop :=
  ∃ p, get_person presp x = .ok p ∧
    (pyOpt p.father_qid = some f ∨ pyOpt p.mother_qid = some f)

/-- Every printed identifier has each of its `allQids`-member parents
printed strictly earlier. -/
def parentsFirstIn (presp : String → Option (List PBinding)) (allQids : List String)
    (out : List String) : Prop :=
  ∀ (i : Nat) (x : String), out[i]? = some x →
    ∀ f, f ∈ allQids → isParentOf presp x f → f ∈ out.take i

/-- The run never finishes, whatever the fuel. -/
def pipeDiverges (presp : String → Option (List PBinding))
    (cresp : String → Option (List (Option String))) (cfg : PipeCfg) (root : String) : Prop :=
  ∀ fuel, emit_person_with_ancestors_and_descendants presp cresp cfg root fuel = none

/-- A rendered line carrying a `mother =` reference field. -/
def isMotherLine (l : String) : Bool :=
  "        mother = ".data.isPrefixOf l.data

/-- A rendered line carrying a `father =` reference field. -/
def isFatherLine (l : String) : Bool :=
  "        father = ".data.isPrefixOf l.data

/-- Each parent link recorded for `x` by the oracle leads (after
normalization) to an already-visited identifier in `V`. -/
def parentsVisitedIn (presp : String → Option (List PBinding)) (x : String)
    (V : List String) : Prop :=
  ∀ p, get_person presp x = .ok p →
    (∀ f, pyOpt p.father_qid = some f → ∃ f2, normalize_qid f = .ok f2 ∧ f2 ∈ V) ∧
    (∀ m, pyOpt p.mother_qid = some m → ∃ m2, normalize_qid m = .ok m2 ∧ m2 ∈ V)

/-- The ancestor-collector state reached from `oracleGap`'s root `Q1`. -/
def ancGapState : AncState :=
  ⟨["Q1", "Q2", "Q3", "Q4"], ["Q1", "Q4"],
   [("Q1", 0), ("Q2", 1), ("Q3", 2), ("Q4", 3)]⟩

/-- How one (partial) run of the ancestor collector extends the state:
the trace grows by `tnew`, the visited list by exactly the traced
identifiers, every new expansion stays within the depth window
`[d, maxD]`, and the new identifiers are fresh and pairwise distinct. -/
def ancExtends (maxD d : Nat) (st st' : AncState) (tnew : List (String × Nat)) : Prop :=
  st'.trace = st.trace ++ tnew ∧
  st'.visited = st.visited ++ tnew.map Prod.fst ∧
  (∀ pr ∈ tnew, d ≤ pr.2 ∧ pr.2 ≤ maxD) ∧
  (∀ pr ∈ tnew, pr.1 ∉ st.visited) ∧
  (tnew.map Prod.fst).Nodup

/-- Persons for the descendant-collector witness: root `Q1` alive, child
`Q2` dead on the cutoff (excluded), `Q2`'s child `Q3` alive (but behind
the excluded node), child `Q4` alive. -/
def oracleDescP : String → Option (List PBinding)
  | "Q1" => some [mkBinding (some "Alpha") none (some "1400-01-01") none]
  | "Q2" => some [mkBinding (some "Beta") none (some "1250-01-01") (some "1300-01-01")]
  | "Q3" => some [mkBinding (some "Gamma") none (some "1420-01-01") none]
  | "Q4" => some [mkBinding (some "Delta") none (some "1420-01-01") none]
  | _ => none

/-- Child links for the descendant-collector witness. -/
def oracleDescC : String → Option (List (Option String))
  | "Q1" => some [some "http://www.wikidata.org/entity/Q2",
                  some "http://www.wikidata.org/entity/Q4"]
  | "Q2" => some [some "http://www.wikidata.org/entity/Q3"]
  | _ => some []

/-- A root dead on the cutoff date (excluded, with the flag unset). -/
def oracleDead : String → Option (List PBinding)
  | "Q1" => some [mkBinding (some "Alpha") none (some "1250-01-01") (some "1300-01-01")]
  | _ => none

/-- The error is an `InvalidIdentifier` (`ValueError(f"Invalid QID: ...")`). -/
def isInvalidIdError (e : String) : Prop :=
  ∃ s, e = "Invalid QID: " ++ s

/-- The result of the `oracleGap` pipeline run (root `Q1`, default
configuration with lineage completion disabled): `Q4` is in the final
Inclusion Set but only `Q1` is printed, and `Q1`'s entry carries a
`father =` reference to the never-printed `wd_beta`. -/
def gapResult : PipeResult :=
  ⟨true, ["Q1", "Q4"], [], ["Q1", "Q4"],
   [("Q1",
     ["    wd_alpha = \x7b (Q1)",
      "        first_name = \x7b name = name_alpha \x7d",
      "        culture = saigoku_culture",
      "        religion = shinto",
      "        birth_date = 1400.1.1",
      "        father = wd_beta",
      "    \x7d"])]⟩

/-- `s` is a fixpoint of `normalize_qid` (an already-normalized QID). -/
def isNormFix (s : String) : Bool :=
  match normalize_qid s with
  | .ok t => t = s
  | .error _ => false

/-- Every truthy parent identifier of the person the oracle returns for
`q` is already normalized. -/
def parentsOkAt (presp : String → Option (List PBinding)) (q : String) : Bool :=
  match get_person presp q with
  | .error _ => true
  | .ok p =>
    (match pyOpt p.father_qid with
     | some f => isNormFix f
     | none => true) &&
    (match pyOpt p.mother_qid with
     | some m => isNormFix m
     | none => true)

/-- `rank` strictly decreases along every in-`A` parent link out of `q`. -/
def rankOkAt (presp : String → Option (List PBinding)) (A : List String)
    (rank : String → Nat) (q : String) : Bool :=
  match get_person presp q with
  | .error _ => true
  | .ok p =>
    A.all (fun f =>
      if pyOpt p.father_qid = some f ∨ pyOpt p.mother_qid = some f then
        decide (rank f < rank q)
      else true)

/-- One parent hop of the emitter (the father/mother sub-step of
`emit_parents_first`): recurse when the parent identifier is truthy and a
member of `allQids`, otherwise leave the state unchanged. -/
def parentStep (presp : String → Option (List PBinding)) (cfg : RenderCfg)
    (allQids : List String) (fuel : Nat) (st : EmitSt) :
    Option String → Option (Except String EmitSt)
  | some f =>
    if f ∈ allQids then emit_parents_first presp cfg allQids fuel st f
    else some (.ok st)
  | none => some (.ok st)

/-- The emitter extended the printed list only by members of `A` of rank
at most `k`. -/
def emitExt (A : List String) (rank : String → Nat) (k : Nat) (st st' : EmitSt) : Prop :=
  ∃ new, emittedQids st' = emittedQids st ++ new ∧ ∀ x ∈ new, x ∈ A ∧ rank x ≤ k

/-- Emission invariant: no identifier printed twice, every in-`A` parent
printed before its child, and only members of `A` printed. -/
def emitInv (presp : String → Option (List PBinding)) (A : List String)
    (st : EmitSt) : Prop :=
  (emittedQids st).Nodup ∧ parentsFirstIn presp A (emittedQids st) ∧
  ∀ x ∈ emittedQids st, x ∈ A

/-- The ancestor-collector state reached from `oracleCyc`'s root `Q1`. -/
def cycAncSt : AncState :=
  ⟨["Q1", "Q2"], ["Q1", "Q2"], [("Q1", 0), ("Q2", 1)]⟩

/-- A rank function witnessing that `oracleChain`'s parent links are
acyclic: child above father above grandfather. -/
def chainRank (q : String) : Nat :=
  if q = "Q3" then 2 else if q = "Q2" then 1 else 0

/-! ## Order lemmas for `Date` -/

theorem dateLe_eq_not_dateLt (a b : Date) : dateLe a b = !dateLt b a := by
  rcases a with ⟨ay, am, ad⟩
  rcases b with ⟨cy, cm, cd⟩
  rw [Bool.eq_iff_iff]
  simp [dateLt, dateLe, Date.mk.injEq]
  omega

theorem dateLt_eq_not_dateLe (a b : Date) : dateLt a b = !dateLe b a := by
  rw [dateLe_eq_not_dateLt, Bool.not_not]

theorem dateLt_false_iff (a b : Date) : dateLt a b = false ↔ dateLe b a = true := by
  rcases a with ⟨ay, am, ad⟩
  rcases b with ⟨cy, cm, cd⟩
  simp [dateLt, dateLe, Date.mk.injEq]
  omega

theorem dateLe_false_iff (a b : Date) : dateLe a b = false ↔ dateLt b a = true := by
  rcases a with ⟨ay, am, ad⟩
  rcases b with ⟨cy, cm, cd⟩
  simp [dateLt, dateLe, Date.mk.injEq]
  omega

/-- Claim C2: `is_alive_on` is false when `require_birth` is set and the
birth date is absent; for a known birth `B` and known death `D` it holds
exactly on the half-open interval `[B, D)` (so a death on the birth day
means not alive on that day, a birth strictly after the reference date
means false, and a death on or before it means false); and with no dates
known and `require_birth` unset it is true. -/
theorem is_alive_on_spec :
    (∀ (p : Person) (ref : Date), parse_iso_date p.birth = none →
      is_alive_on p ref true = false) ∧
    (∀ (p : Person) (ref B D : Date) (rb : Bool),
      parse_iso_date p.birth = some B → parse_iso_date p.death = some D →
      (is_alive_on p ref rb = true ↔ (dateLe B ref = true ∧ dateLt ref D = true))) ∧
    (∀ (p : Person) (ref : Date), parse_iso_date p.birth = none →
      parse_iso_date p.death = none → is_alive_on p ref false = true) := by
  refine ⟨?_, ?_, ?_⟩
  · intro p ref h
    simp [is_alive_on, h]
  · intro p ref B D rb hB hD
    simp only [is_alive_on, hB, hD, Option.isNone_some, Bool.and_false]
    cases hb : dateLt ref B <;> cases hd : dateLe D ref <;> simp [hb, hd]
    · exact ⟨(dateLt_false_iff ref B).mp hb, (dateLe_false_iff D ref).mp hd⟩
    · intro h1
      cases h2 : dateLt ref D with
      | false => rfl
      | true => exact absurd ((dateLe_false_iff D ref).mpr h2) (by simp [hd])
    · intro h1
      exact absurd ((dateLt_false_iff ref B).mpr h1) (by simp [hb])
    · intro h1
      exact absurd ((dateLt_false_iff ref B).mpr h1) (by simp [hb])
  · intro p ref hB hD
    simp [is_alive_on, hB, hD]

/-- Witness for C2 at concrete inputs: a person with birth and death both
`1400-01-01` is not alive on `1400-01-01` (half-open interval, `D = B`),
a birthless person is excluded under `require_birth`, and a fully
undated person counts as alive. -/
theorem is_alive_on_spec_witness :
    is_alive_on ⟨"Q1", none, none, some "1400-01-01", some "1400-01-01", none, none, none⟩
      ⟨1400, 1, 1⟩ false = false ∧
    is_alive_on ⟨"Q1", none, none, none, none, none, none, none⟩ ⟨1400, 1, 1⟩ true = false ∧
    is_alive_on ⟨"Q1", none, none, none, none, none, none, none⟩ ⟨1400, 1, 1⟩ false = true := by
  refine ⟨?_, ?_, ?_⟩
  · have h := (is_alive_on_spec.2.1
      ⟨"Q1", none, none, some "1400-01-01", some "1400-01-01", none, none, none⟩
      ⟨1400, 1, 1⟩ ⟨1400, 1, 1⟩ ⟨1400, 1, 1⟩ false (by decide) (by decide))
    rw [Bool.eq_false_iff]
    intro hcon
    have := h.mp hcon
    exact absurd this.2 (by decide)
  · exact is_alive_on_spec.1 ⟨"Q1", none, none, none, none, none, none, none⟩ ⟨1400, 1, 1⟩
      (by decide)
  · exact is_alive_on_spec.2.2 ⟨"Q1", none, none, none, none, none, none, none⟩ ⟨1400, 1, 1⟩
      (by decide) (by decide)

/-- Claim C10: the date helpers are total — absent input gives an absent
result, an unparsable first-ten-characters prefix gives an absent result
for both helpers, any parsed date has a strictly positive year (so a
non-positive-year date is never produced: a BC birth date is treated as
no birth date), and a person whose birth fails to parse is excluded by
`is_alive_on` whenever `require_birth` is set. -/
theorem parse_iso_date_total :
    (parse_iso_date none = none ∧ iso_to_eu_date none = none) ∧
    (∀ s : String, strptimeYmd (pySlice10 s) = none →
      parse_iso_date (some s) = none ∧ iso_to_eu_date (some s) = none) ∧
    (∀ (s : String) (d : Date), parse_iso_date (some s) = some d → 1 ≤ d.y) ∧
    (∀ (p : Person) (ref : Date), parse_iso_date p.birth = none →
      is_alive_on p ref true = false) := by
  refine ⟨⟨rfl, rfl⟩, ?_, ?_, ?_⟩
  · intro s h
    by_cases hs : s = "" <;> simp [parse_iso_date, iso_to_eu_date, hs, h]
  · intro s d h
    by_cases hs : s = ""
    · simp [parse_iso_date, hs] at h
    · simp only [parse_iso_date, hs, if_false] at h
      cases hp : strptimeYmd (pySlice10 s) with
      | none => rw [hp] at h; exact absurd h (by simp)
      | some dt =>
        rw [hp] at h
        by_cases hy : dt.y = 0
        · simp [hy] at h
        · simp [hy] at h
          subst h
          omega
  · intro p ref h
    simp [is_alive_on, h]

/-- Witness for C10 at concrete inputs: a BC date string has an
unparsable ten-character prefix, so both helpers return `none`, and a
person whose only birth date is that BC string is excluded under
`require_birth`. -/
theorem parse_iso_date_total_witness :
    (parse_iso_date (some "-0500-01-01") = none ∧
     iso_to_eu_date (some "-0500-01-01") = none) ∧
    is_alive_on ⟨"Q1", none, none, some "-0500-01-01", none, none, none, none⟩
      ⟨1444, 11, 11⟩ true = false := by
  refine ⟨parse_iso_date_total.2.1 "-0500-01-01" (by decide), ?_⟩
  exact parse_iso_date_total.2.2.2
    ⟨"Q1", none, none, some "-0500-01-01", none, none, none, none⟩ ⟨1444, 11, 11⟩ (by decide)

/-- Claim C7: a failure of the query oracle is never propagated —
`fetch_person` returns a `Person` with every optional field absent both
on query failure (`none`) and on an empty result list, and
`fetch_children_qids` returns the empty list on query failure. -/
theorem fetch_failure_absorbed :
    ∀ (qid q : String), normalize_qid qid = .ok q →
      fetch_person qid none = .ok (emptyPerson q) ∧
      fetch_person qid (some []) = .ok (emptyPerson q) ∧
      emptyPerson q = ⟨q, none, none, none, none, none, none, none⟩ ∧
      fetch_children_qids qid none = .ok [] := by
  intro qid q h
  refine ⟨?_, ?_, rfl, ?_⟩ <;> simp [fetch_person, fetch_children_qids, h]

/-- Witness for C7 at the concrete identifier `Q5`. -/
theorem fetch_failure_absorbed_witness :
    fetch_person "Q5" none = .ok (emptyPerson "Q5") ∧
    fetch_person "Q5" (some []) = .ok (emptyPerson "Q5") ∧
    emptyPerson "Q5" = ⟨"Q5", none, none, none, none, none, none, none⟩ ∧
    fetch_children_qids "Q5" none = .ok [] :=
  fetch_failure_absorbed "Q5" "Q5" rfl

/-! ## C9: child-list ordering -/

theorem fetch_children_foldl_eq (bindings : List (Option String)) (acc : List String) :
    bindings.foldl (fun acc b =>
        match pyOpt b with
        | none => acc
        | some child =>
          let child_qid := rsplitLastSlash child
          if isQidFormat child_qid then acc ++ [child_qid] else acc) acc
      = acc ++ bindings.filterMap extractChild := by
  induction bindings generalizing acc with
  | nil => simp
  | cons b bs ih =>
    simp only [List.foldl_cons, List.filterMap_cons]
    cases hb : pyOpt b with
    | none => simp [extractChild, hb, ih]
    | some child =>
      by_cases hq : isQidFormat (rsplitLastSlash child) = true
      · simp [extractChild, hb, hq, ih]
      · simp [extractChild, hb, hq, ih]

theorem extracted_sublist_raw (bindings : List (Option String)) :
    (bindings.filterMap extractChild).Sublist
      (bindings.filterMap (fun b => (pyOpt b).map rsplitLastSlash)) := by
  induction bindings with
  | nil => simp
  | cons b bs ih =>
    simp only [List.filterMap_cons]
    cases hb : pyOpt b with
    | none => simpa [extractChild, hb] using ih
    | some child =>
      by_cases hq : isQidFormat (rsplitLastSlash child) = true
      · simpa [extractChild, hb, hq] using ih.cons₂ (rsplitLastSlash child)
      · simpa [extractChild, hb, hq] using ih.cons (rsplitLastSlash child)

/-- Claim C9 (amended): on query failure or no children
`fetch_children_qids` returns the empty list; on a response it returns
exactly the valid child identifiers in *response* order — an
order-preserving subselection of the raw child values — performing no
sort itself (the query asks the server to order via `ORDER BY ?child`,
so the output is sorted only when the source honors that request). -/
theorem fetch_children_qids_order :
    ∀ (qid q : String), normalize_qid qid = .ok q →
      fetch_children_qids qid none = .ok [] ∧
      ∀ (bindings : List (Option String)) (l : List String),
        fetch_children_qids qid (some bindings) = .ok l →
        l = bindings.filterMap extractChild ∧
        (∀ c ∈ l, isQidFormat c = true) ∧
        l.Sublist (bindings.filterMap (fun b => (pyOpt b).map rsplitLastSlash)) := by
  intro qid q h
  refine ⟨by simp [fetch_children_qids, h], ?_⟩
  intro bindings l hl
  simp only [fetch_children_qids, h, fetch_children_foldl_eq, List.nil_append,
    Except.ok.injEq] at hl
  subst hl
  refine ⟨rfl, ?_, extracted_sublist_raw bindings⟩
  intro c hc
  rcases List.mem_filterMap.mp hc with ⟨b, _, hb⟩
  cases hpb : pyOpt b with
  | none => simp [extractChild, hpb] at hb
  | some child =>
    simp only [extractChild, hpb, Option.some_bind] at hb
    by_cases hq : isQidFormat (rsplitLastSlash child) = true
    · simp [hq] at hb
      rw [← hb]
      exact hq
    · simp [hq] at hb

/-- Witness for C9 (amended) at a concrete response holding two valid
children out of server order, one invalid value and one missing value. -/
theorem fetch_children_qids_order_witness :
    fetch_children_qids "Q1" none = .ok [] ∧
    (["Q9", "Q2"] = [some "http://www.wikidata.org/entity/Q9", some "bogus", none,
        some "http://www.wikidata.org/entity/Q2"].filterMap extractChild ∧
      (∀ c ∈ ["Q9", "Q2"], isQidFormat c = true) ∧
      List.Sublist ["Q9", "Q2"]
        ([some "http://www.wikidata.org/entity/Q9", some "bogus", none,
          some "http://www.wikidata.org/entity/Q2"].filterMap
            (fun b => (pyOpt b).map rsplitLastSlash))) :=
  ⟨(fetch_children_qids_order "Q1" "Q1" rfl).1,
   (fetch_children_qids_order "Q1" "Q1" rfl).2
     [some "http://www.wikidata.org/entity/Q9", some "bogus", none,
      some "http://www.wikidata.org/entity/Q2"] ["Q9", "Q2"] rfl⟩

/-- Counterexample to C9 as stated: the caller performs no sort, so when
the source answers out of order the returned list is unsorted. -/
theorem fetch_children_qids_counterexample :
    fetch_children_qids "Q1" (some [some "http://www.wikidata.org/entity/Q9",
        some "http://www.wikidata.org/entity/Q2"]) = .ok ["Q9", "Q2"] ∧
    sortStrs ["Q9", "Q2"] = ["Q2", "Q9"] ∧
    (["Q9", "Q2"] : List String) ≠ ["Q2", "Q9"] :=
  ⟨rfl, rfl, by decide⟩

/-! ## C3: identifier allocation -/

theorem normalize_ok_format {q n : String} (h : normalize_qid q = .ok n) :
    isQidFormat n = true := by
  unfold normalize_qid at h
  by_cases hf : isQidFormat (if pyStartsWith (pyStrip q) "http"
      then rsplitLastSlash (pyStrip q) else pyStrip q) = true
  · simp only [hf, if_true] at h
    cases h
    exact hf
  · simp [hf] at h

theorem qidFormat_ne_empty {s : String} (h : isQidFormat s = true) : s ≠ "" := by
  intro hc
  rw [hc] at h
  exact absurd h (by decide)

theorem append_suffix_ne (a b : String) : a ++ "_" ++ b ≠ a := by
  intro h
  have hl := congrArg String.length h
  simp only [String.length_append] at hl
  have h1 : "_".length = 1 := rfl
  rw [h1] at hl
  omega

/-- Claim C3 (amended): a previously-seen external identifier always
returns its previously-assigned local identifier with the state
unchanged, and the first two distinct identifiers allocated from a fresh
allocator always receive distinct local identifiers — a direct candidate
collision is resolved by the qid suffix. Full injectivity at every point
of a run does *not* hold: the suffixed token is recorded without being
re-checked against the used-token map, so a later identifier whose
natural candidate equals an earlier identifier's suffixed token is
assigned that very token (see the counterexample). -/
theorem id_for_qid_partial_injective :
    (∀ (presp : String → Option (List PBinding)) (idPre : String) (st : AllocSt)
        (qid q c : String), normalize_qid qid = .ok q →
        assocLookup st.qid_to_char_id q = some c →
        id_for_qid presp idPre st qid = .ok (c, st)) ∧
    (∀ (presp : String → Option (List PBinding)) (idPre : String)
        (q1 q2 n1 n2 c1 c2 : String) (st1 st2 : AllocSt),
        normalize_qid q1 = .ok n1 → normalize_qid q2 = .ok n2 → n1 ≠ n2 →
        id_for_qid presp idPre ⟨[], []⟩ q1 = .ok (c1, st1) →
        id_for_qid presp idPre st1 q2 = .ok (c2, st2) →
        c1 ≠ c2) := by
  constructor
  · intro presp idPre st qid q c hq hlook
    simp [id_for_qid, hq, hlook]
  · intro presp idPre q1 q2 n1 n2 c1 c2 st1 st2 h1 h2 hne hr1 hr2
    simp only [id_for_qid, h1, assocLookup] at hr1
    cases hp1 : get_person presp n1 with
    | error e => rw [hp1] at hr1; exact absurd hr1 (by simp)
    | ok person1 =>
      rw [hp1] at hr1
      simp only [assocLookup, Except.ok.injEq, Prod.mk.injEq, List.nil_append] at hr1
      obtain ⟨hc1, hst1⟩ := hr1
      subst hc1
      subst hst1
      simp only [id_for_qid, h2, List.nil_append, assocLookup, assocSet] at hr2
      rw [if_neg hne] at hr2
      cases hp2 : get_person presp n2 with
      | error e => rw [hp2] at hr2; exact absurd hr2 (by simp)
      | ok person2 =>
        rw [hp2] at hr2
        simp only [] at hr2
        by_cases hcand : make_character_id_from_person person1 idPre =
            make_character_id_from_person person2 idPre
        · rw [if_pos hcand] at hr2
          have hn1ne : n1 ≠ "" := qidFormat_ne_empty (normalize_ok_format h1)
          simp only [hn1ne, hne, ne_eq, not_false_eq_true, and_self, if_true,
            Except.ok.injEq, Prod.mk.injEq] at hr2
          rw [← hr2.1, hcand]
          exact fun h => append_suffix_ne (make_character_id_from_person person2 idPre)
            (pyLower n2) h.symm
        · rw [if_neg hcand] at hr2
          simp only [Except.ok.injEq, Prod.mk.injEq] at hr2
          rw [← hr2.1]
          exact hcand

/-- Witness for C3 (amended): re-asking for `Q3` returns its recorded
identifier with the state unchanged, and the fresh-pair run `Q3` then
`Q5` (whose candidates both slugify to `wd_foo`) yields two distinct
local identifiers. -/
theorem id_for_qid_partial_injective_witness :
    id_for_qid oracleAlloc "wd_" ⟨[("Q3", "wd_foo")], [("wd_foo", "Q3")]⟩ "Q3" =
      .ok ("wd_foo", ⟨[("Q3", "wd_foo")], [("wd_foo", "Q3")]⟩) ∧
    ("wd_foo" : String) ≠ "wd_foo_q5" :=
  ⟨id_for_qid_partial_injective.1 oracleAlloc "wd_"
      ⟨[("Q3", "wd_foo")], [("wd_foo", "Q3")]⟩ "Q3" "Q3" "wd_foo" rfl rfl,
   id_for_qid_partial_injective.2 oracleAlloc "wd_" "Q3" "Q5" "Q3" "Q5" "wd_foo"
      "wd_foo_q5" ⟨[("Q3", "wd_foo")], [("wd_foo", "Q3")]⟩
      ⟨[("Q3", "wd_foo"), ("Q5", "wd_foo_q5")], [("wd_foo", "Q3"), ("wd_foo_q5", "Q5")]⟩
      rfl rfl (by decide) rfl rfl⟩

/-- Counterexample to C3 as stated: after allocating `Q3` (label `Foo`),
`Q9` (label `Foo Q5`) and `Q5` (label `Foo`), the distinct external
identifiers `Q9` and `Q5` share the local identifier `wd_foo_q5` — the
suffixed candidate of `Q5` was never re-checked against the used-token
map that already recorded it for `Q9`. -/
theorem id_for_qid_not_injective_counterexample :
    id_for_qid oracleAlloc "wd_" ⟨[], []⟩ "Q3" =
      .ok ("wd_foo", ⟨[("Q3", "wd_foo")], [("wd_foo", "Q3")]⟩) ∧
    id_for_qid oracleAlloc "wd_" ⟨[("Q3", "wd_foo")], [("wd_foo", "Q3")]⟩ "Q9" =
      .ok ("wd_foo_q5", ⟨[("Q3", "wd_foo"), ("Q9", "wd_foo_q5")],
        [("wd_foo", "Q3"), ("wd_foo_q5", "Q9")]⟩) ∧
    id_for_qid oracleAlloc "wd_" ⟨[("Q3", "wd_foo"), ("Q9", "wd_foo_q5")],
        [("wd_foo", "Q3"), ("wd_foo_q5", "Q9")]⟩ "Q5" =
      .ok ("wd_foo_q5", ⟨[("Q3", "wd_foo"), ("Q9", "wd_foo_q5"), ("Q5", "wd_foo_q5")],
        [("wd_foo", "Q3"), ("wd_foo_q5", "Q5")]⟩) ∧
    assocLookup [("Q3", "wd_foo"), ("Q9", "wd_foo_q5"), ("Q5", "wd_foo_q5")] "Q9" =
      some "wd_foo_q5" ∧
    assocLookup [("Q3", "wd_foo"), ("Q9", "wd_foo_q5"), ("Q5", "wd_foo_q5")] "Q5" =
      some "wd_foo_q5" ∧
    ("Q9" : String) ≠ "Q5" :=
  ⟨rfl, rfl, rfl, rfl, rfl, by decide⟩

/-! ## C4: ancestor collection -/

theorem gather_mono (presp : String → Option (List PBinding)) (incl : Bool) (maxD : Nat) :
    ∀ (fuel : Nat) (q : String) (d : Nat) (st st' : AncState),
      gather_ancestors presp incl maxD fuel q d st = some (.ok st') →
      ∀ x ∈ st.visited, x ∈ st'.visited := by
  intro fuel
  induction fuel with
  | zero => intro q d st st' h; simp [gather_ancestors] at h
  | succ n ih =>
    intro q d st st' h
    simp only [gather_ancestors] at h
    cases hn : normalize_qid q with
    | error e => simp only [hn] at h; simp at h
    | ok q2 =>
      simp only [hn] at h
      by_cases hv : q2 ∈ st.visited
      · rw [if_pos hv] at h
        simp only [Option.some.injEq, Except.ok.injEq] at h
        subst h
        exact fun x hx => hx
      · rw [if_neg hv] at h
        cases hp : get_person presp q2 with
        | error e => simp only [hp] at h; simp at h
        | ok person =>
          simp only [hp] at h
          by_cases hd : maxD ≤ d
          · rw [if_pos hd] at h
            simp only [Option.some.injEq, Except.ok.injEq] at h
            subst h
            intro x hx
            simp [List.mem_append, hx]
          · rw [if_neg hd] at h
            cases hf : pyOpt person.father_qid with
            | some f =>
              simp only [hf] at h
              cases hr1 : gather_ancestors presp incl maxD n f (d + 1)
                  { visited := st.visited ++ [q2],
                    included :=
                      if d = 0 then (if incl then st.included ++ [q2] else st.included)
                      else (if is_alive_on person CUTOFF_DATE true then st.included ++ [q2]
                            else st.included),
                    trace := st.trace ++ [(q2, d)] } with
              | none => simp only [hr1] at h; simp at h
              | some r1 =>
                cases r1 with
                | error e => simp only [hr1] at h; simp at h
                | ok st3 =>
                  simp only [hr1] at h
                  have h1 : ∀ x ∈ st.visited, x ∈ st3.visited := by
                    intro x hx
                    exact ih f (d + 1) _ st3 hr1 x (by simp [List.mem_append, hx])
                  cases hm : pyOpt person.mother_qid with
                  | some m =>
                    simp only [hm] at h
                    intro x hx
                    exact ih m (d + 1) st3 st' h x (h1 x hx)
                  | none =>
                    simp only [hm, Option.some.injEq, Except.ok.injEq] at h
                    subst h
                    exact h1
            | none =>
              simp only [hf] at h
              cases hm : pyOpt person.mother_qid with
              | some m =>
                simp only [hm] at h
                intro x hx
                exact ih m (d + 1) _ st' h x (by simp [List.mem_append, hx])
              | none =>
                simp only [hm, Option.some.injEq, Except.ok.injEq] at h
                subst h
                intro x hx
                simp [List.mem_append, hx]

theorem gather_visits (presp : String → Option (List PBinding)) (incl : Bool) (maxD : Nat) :
    ∀ (fuel : Nat) (q : String) (d : Nat) (st st' : AncState),
      gather_ancestors presp incl maxD fuel q d st = some (.ok st') →
      ∃ q2, normalize_qid q = .ok q2 ∧ q2 ∈ st'.visited := by
  intro fuel q d st st' h
  cases fuel with
  | zero => simp [gather_ancestors] at h
  | succ n =>
    simp only [gather_ancestors] at h
    cases hn : normalize_qid q with
    | error e => simp only [hn] at h; simp at h
    | ok q2 =>
      refine ⟨q2, rfl, ?_⟩
      simp only [hn] at h
      by_cases hv : q2 ∈ st.visited
      · rw [if_pos hv] at h
        simp only [Option.some.injEq, Except.ok.injEq] at h
        subst h
        exact hv
      · rw [if_neg hv] at h
        cases hp : get_person presp q2 with
        | error e => simp only [hp] at h; simp at h
        | ok person =>
          simp only [hp] at h
          have hmem : q2 ∈ st.visited ++ [q2] := by simp
          by_cases hd : maxD ≤ d
          · rw [if_pos hd] at h
            simp only [Option.some.injEq, Except.ok.injEq] at h
            subst h
            exact hmem
          · rw [if_neg hd] at h
            cases hf : pyOpt person.father_qid with
            | some f =>
              simp only [hf] at h
              cases hr1 : gather_ancestors presp incl maxD n f (d + 1)
                  { visited := st.visited ++ [q2],
                    included :=
                      if d = 0 then (if incl then st.included ++ [q2] else st.included)
                      else (if is_alive_on person CUTOFF_DATE true then st.included ++ [q2]
                            else st.included),
                    trace := st.trace ++ [(q2, d)] } with
              | none => simp only [hr1] at h; simp at h
              | some r1 =>
                cases r1 with
                | error e => simp only [hr1] at h; simp at h
                | ok st3 =>
                  simp only [hr1] at h
                  have h1 : q2 ∈ st3.visited :=
                    gather_mono presp incl maxD n f (d + 1) _ st3 hr1 q2 hmem
                  cases hm : pyOpt person.mother_qid with
                  | some m =>
                    simp only [hm] at h
                    exact gather_mono presp incl maxD n m (d + 1) st3 st' h q2 h1
                  | none =>
                    simp only [hm, Option.some.injEq, Except.ok.injEq] at h
                    subst h
                    exact h1
            | none =>
              simp only [hf] at h
              cases hm : pyOpt person.mother_qid with
              | some m =>
                simp only [hm] at h
                exact gather_mono presp incl maxD n m (d + 1) _ st' h q2 hmem
              | none =>
                simp only [hm, Option.some.injEq, Except.ok.injEq] at h
                subst h
                exact hmem

theorem parentsVisitedIn_mono {presp : String → Option (List PBinding)} {x : String}
    {V V' : List String} (hsub : ∀ a ∈ V, a ∈ V') :
    parentsVisitedIn presp x V → parentsVisitedIn presp x V' := by
  intro h p hp
  obtain ⟨hf, hm⟩ := h p hp
  constructor
  · intro f hfq
    obtain ⟨f2, h1, h2⟩ := hf f hfq
    exact ⟨f2, h1, hsub f2 h2⟩
  · intro m hmq
    obtain ⟨m2, h1, h2⟩ := hm m hmq
    exact ⟨m2, h1, hsub m2 h2⟩

theorem ancExtends_nil (maxD d : Nat) (st : AncState) :
    ancExtends maxD d st st [] := by
  refine ⟨by simp, by simp, by simp, by simp, by simp⟩

theorem ancExtends_trans {maxD d : Nat} {st st3 st' : AncState}
    {t1 t2 : List (String × Nat)} (h1 : ancExtends maxD d st st3 t1)
    (h2 : ancExtends maxD d st3 st' t2) :
    ancExtends maxD d st st' (t1 ++ t2) := by
  obtain ⟨h1t, h1v, h1b, h1f, h1n⟩ := h1
  obtain ⟨h2t, h2v, h2b, h2f, h2n⟩ := h2
  refine ⟨?_, ?_, ?_, ?_, ?_⟩
  · rw [h2t, h1t, List.append_assoc]
  · rw [h2v, h1v, List.map_append, List.append_assoc]
  · intro pr hpr
    rcases List.mem_append.mp hpr with hm | hm
    · exact h1b pr hm
    · exact h2b pr hm
  · intro pr hpr
    rcases List.mem_append.mp hpr with hm | hm
    · exact h1f pr hm
    · intro hc
      exact h2f pr hm (by rw [h1v]; simp [hc])
  · rw [List.map_append]
    refine List.Nodup.append h1n h2n ?_
    intro a ha hc
    rcases List.mem_map.mp hc with ⟨pr, hpr, hpr2⟩
    refine h2f pr hpr ?_
    rw [h1v, hpr2]
    simp [ha]

theorem ancExtends_depth_mono {maxD d d' : Nat} {st st' : AncState}
    {t : List (String × Nat)} (hd : d ≤ d') (h : ancExtends maxD d' st st' t) :
    ancExtends maxD d st st' t := by
  obtain ⟨h1, h2, h3, h4, h5⟩ := h
  exact ⟨h1, h2, fun pr hpr => ⟨le_trans hd (h3 pr hpr).1, (h3 pr hpr).2⟩, h4, h5⟩

theorem ancExtends_single {maxD d : Nat} {st : AncState} {q2 : String}
    (hv : q2 ∉ st.visited) (hle : d ≤ maxD) (inc : List String) :
    ancExtends maxD d st ⟨st.visited ++ [q2], inc, st.trace ++ [(q2, d)]⟩ [(q2, d)] := by
  refine ⟨rfl, by simp, ?_, ?_, by simp⟩
  · intro pr hpr
    simp only [List.mem_singleton] at hpr
    subst hpr
    exact ⟨le_refl d, hle⟩
  · intro pr hpr
    simp only [List.mem_singleton] at hpr
    subst hpr
    exact hv

theorem gather_run (presp : String → Option (List PBinding)) (incl : Bool) (maxD : Nat) :
    ∀ (fuel : Nat) (q : String) (d : Nat) (st st' : AncState),
      gather_ancestors presp incl maxD fuel q d st = some (.ok st') →
      d ≤ maxD →
      ∃ tnew, ancExtends maxD d st st' tnew ∧
        ∀ pr ∈ tnew, pr.2 < maxD → parentsVisitedIn presp pr.1 st'.visited := by
  intro fuel
  induction fuel with
  | zero => intro q d st st' h _; simp [gather_ancestors] at h
  | succ n ih =>
    intro q d st st' h hle
    simp only [gather_ancestors] at h
    cases hn : normalize_qid q with
    | error e => simp only [hn] at h; simp at h
    | ok q2 =>
      simp only [hn] at h
      by_cases hv : q2 ∈ st.visited
      · rw [if_pos hv] at h
        simp only [Option.some.injEq, Except.ok.injEq] at h
        subst h
        exact ⟨[], ancExtends_nil maxD d st, by simp⟩
      · rw [if_neg hv] at h
        cases hp : get_person presp q2 with
        | error e => simp only [hp] at h; simp at h
        | ok person =>
          simp only [hp] at h
          by_cases hd : maxD ≤ d
          · rw [if_pos hd] at h
            simp only [Option.some.injEq, Except.ok.injEq] at h
            subst h
            refine ⟨[(q2, d)], ancExtends_single hv hle _, ?_⟩
            intro pr hpr hlt
            simp only [List.mem_singleton] at hpr
            subst hpr
            exact absurd hlt (by omega)
          · rw [if_neg hd] at h
            have hle1 : d + 1 ≤ maxD := by omega
            cases hf : pyOpt person.father_qid with
            | some f =>
              simp only [hf] at h
              cases hr1 : gather_ancestors presp incl maxD n f (d + 1)
                  { visited := st.visited ++ [q2],
                    included :=
                      if d = 0 then (if incl then st.included ++ [q2] else st.included)
                      else (if is_alive_on person CUTOFF_DATE true then st.included ++ [q2]
                            else st.included),
                    trace := st.trace ++ [(q2, d)] } with
              | none => simp only [hr1] at h; simp at h
              | some r1 =>
                cases r1 with
                | error e => simp only [hr1] at h; simp at h
                | ok st3 =>
                  simp only [hr1] at h
                  obtain ⟨t1, hE1, hP1⟩ := ih f (d + 1) _ st3 hr1 hle1
                  obtain ⟨f2, hf2n, hf2v⟩ :=
                    gather_visits presp incl maxD n f (d + 1) _ st3 hr1
                  cases hm : pyOpt person.mother_qid with
                  | some m =>
                    simp only [hm] at h
                    obtain ⟨t2, hE2, hP2⟩ := ih m (d + 1) st3 st' h hle1
                    obtain ⟨m2, hm2n, hm2v⟩ :=
                      gather_visits presp incl maxD n m (d + 1) st3 st' h
                    have hsub3 : ∀ a ∈ st3.visited, a ∈ st'.visited := by
                      intro a ha
                      rw [hE2.2.1]
                      simp [ha]
                    refine ⟨(q2, d) :: (t1 ++ t2), ?_, ?_⟩
                    · have := ancExtends_trans (ancExtends_single hv hle _)
                        (ancExtends_trans (ancExtends_depth_mono (by omega) hE1)
                          (ancExtends_depth_mono (by omega) hE2))
                      simpa using this
                    · intro pr hpr hlt
                      rcases List.mem_cons.mp hpr with hpr | hpr
                      · subst hpr
                        intro p hp2
                        rw [hp] at hp2
                        simp only [Except.ok.injEq] at hp2
                        subst hp2
                        constructor
                        · intro f0 hf0
                          rw [hf] at hf0
                          simp only [Option.some.injEq] at hf0
                          subst hf0
                          exact ⟨f2, hf2n, hsub3 f2 hf2v⟩
                        · intro m0 hm0
                          rw [hm] at hm0
                          simp only [Option.some.injEq] at hm0
                          subst hm0
                          exact ⟨m2, hm2n, hm2v⟩
                      rcases List.mem_append.mp hpr with hpr | hpr
                      · exact parentsVisitedIn_mono hsub3 (hP1 pr hpr hlt)
                      · exact hP2 pr hpr hlt
                  | none =>
                    simp only [hm, Option.some.injEq, Except.ok.injEq] at h
                    subst h
                    refine ⟨(q2, d) :: t1, ?_, ?_⟩
                    · have := ancExtends_trans (ancExtends_single hv hle _)
                        (ancExtends_depth_mono (by omega) hE1)
                      simpa using this
                    · intro pr hpr hlt
                      rcases List.mem_cons.mp hpr with hpr | hpr
                      · subst hpr
                        intro p hp2
                        rw [hp] at hp2
                        simp only [Except.ok.injEq] at hp2
                        subst hp2
                        constructor
                        · intro f0 hf0
                          rw [hf] at hf0
                          simp only [Option.some.injEq] at hf0
                          subst hf0
                          exact ⟨f2, hf2n, hf2v⟩
                        · intro m0 hm0
                          rw [hm] at hm0
                          simp at hm0
                      · exact hP1 pr hpr hlt
            | none =>
              simp only [hf] at h
              cases hm : pyOpt person.mother_qid with
              | some m =>
                simp only [hm] at h
                obtain ⟨t2, hE2, hP2⟩ := ih m (d + 1) _ st' h hle1
                obtain ⟨m2, hm2n, hm2v⟩ :=
                  gather_visits presp incl maxD n m (d + 1) _ st' h
                refine ⟨(q2, d) :: t2, ?_, ?_⟩
                · have := ancExtends_trans (ancExtends_single hv hle _)
                    (ancExtends_depth_mono (by omega) hE2)
                  simpa using this
                · intro pr hpr hlt
                  rcases List.mem_cons.mp hpr with hpr | hpr
                  · subst hpr
                    intro p hp2
                    rw [hp] at hp2
                    simp only [Except.ok.injEq] at hp2
                    subst hp2
                    constructor
                    · intro f0 hf0
                      rw [hf] at hf0
                      simp at hf0
                    · intro m0 hm0
                      rw [hm] at hm0
                      simp only [Option.some.injEq] at hm0
                      subst hm0
                      exact ⟨m2, hm2n, hm2v⟩
                  · exact hP2 pr hpr hlt
              | none =>
                simp only [hm, Option.some.injEq, Except.ok.injEq] at h
                subst h
                refine ⟨[(q2, d)], ancExtends_single hv hle _, ?_⟩
                intro pr hpr hlt
                simp only [List.mem_singleton] at hpr
                subst hpr
                intro p hp2
                rw [hp] at hp2
                simp only [Except.ok.injEq] at hp2
                subst hp2
                constructor
                · intro f0 hf0
                  rw [hf] at hf0
                  simp at hf0
                · intro m0 hm0
                  rw [hm] at hm0
                  simp at hm0

/-- Claim C4: a successful ancestor-collection run from the root expands
each external identifier at most once even when reachable via multiple
descent paths (the visited list is exactly the expansion trace, without
duplicates), never expands past the configured depth bound, visits only
the root when the bound is zero, and continues traversal to the father
and the mother of every node expanded below the bound — with no liveness
condition, so also for nodes that fail the filter and are not included. -/
theorem gather_ancestors_bounds
    (presp : String → Option (List PBinding)) (incl : Bool) (maxD fuel : Nat)
    (root : String) (st : AncState)
    (h : gather_ancestors presp incl maxD fuel root 0 ⟨[], [], []⟩ = some (.ok st)) :
    st.visited = st.trace.map Prod.fst ∧
    (st.trace.map Prod.fst).Nodup ∧
    (∀ pr ∈ st.trace, pr.2 ≤ maxD) ∧
    (maxD = 0 → ∃ r2, normalize_qid root = .ok r2 ∧ st.trace = [(r2, 0)]) ∧
    (∀ pr ∈ st.trace, pr.2 < maxD → parentsVisitedIn presp pr.1 st.visited) := by
  obtain ⟨tnew, hE, hP⟩ :=
    gather_run presp incl maxD fuel root 0 ⟨[], [], []⟩ st h (Nat.zero_le maxD)
  obtain ⟨htr, hvis, hb, hfr, hnd⟩ := hE
  have htr' : st.trace = tnew := by simpa using htr
  have hvis' : st.visited = tnew.map Prod.fst := by simpa using hvis
  refine ⟨by rw [hvis', htr'], by rw [htr']; exact hnd, ?_, ?_, ?_⟩
  · intro pr hpr
    exact (hb pr (htr' ▸ hpr)).2
  · intro hm0
    cases fuel with
    | zero => simp [gather_ancestors] at h
    | succ n =>
      subst hm0
      simp only [gather_ancestors] at h
      cases hn : normalize_qid root with
      | error e => simp only [hn] at h; simp at h
      | ok r2 =>
        refine ⟨r2, rfl, ?_⟩
        simp only [hn] at h
        rw [if_neg (List.not_mem_nil r2)] at h
        cases hp : get_person presp r2 with
        | error e => simp only [hp] at h; simp at h
        | ok person =>
          simp only [hp] at h
          rw [if_pos (le_refl 0)] at h
          simp only [Option.some.injEq, Except.ok.injEq] at h
          subst h
          simp
  · intro pr hpr hlt
    exact hP pr (htr' ▸ hpr) hlt

/-- Witness for C4: the `oracleGap` run with bound 6 — the dead
intermediate ancestors `Q2` and `Q3` are expanded once each and their
parents are still traversed, reaching the living `Q4`. -/
theorem gather_ancestors_bounds_witness :
    ancGapState.visited = ancGapState.trace.map Prod.fst ∧
    (ancGapState.trace.map Prod.fst).Nodup ∧
    (∀ pr ∈ ancGapState.trace, pr.2 ≤ 6) ∧
    ((6 : Nat) = 0 → ∃ r2, normalize_qid "Q1" = .ok r2 ∧ ancGapState.trace = [(r2, 0)]) ∧
    (∀ pr ∈ ancGapState.trace, pr.2 < 6 →
      parentsVisitedIn oracleGap pr.1 ancGapState.visited) :=
  gather_ancestors_bounds oracleGap true 6 20 "Q1" ancGapState rfl

/-! ## C5: descendant collection -/

theorem except_bind_ok {α β ε : Type} (a : α) (f : α → Except ε β) :
    (Except.ok a >>= f) = f a := rfl

theorem except_bind_error {α β ε : Type} (e : ε) (f : α → Except ε β) :
    ((Except.error e : Except ε α) >>= f) = Except.error e := rfl

theorem except_pure_eq {α ε : Type} (a : α) : (pure a : Except ε α) = Except.ok a := rfl

theorem gd_run (presp : String → Option (List PBinding))
    (cresp : String → Option (List (Option String))) (rb : Bool) :
    ∀ (d : Nat) (q : String) (st st' : DescState),
      gather_descendants_alive presp cresp rb d q st = .ok st' →
      ∃ tnew dnew,
        st'.trace = st.trace ++ tnew ∧
        st'.descendants = st.descendants ++ dnew ∧
        (∀ pr ∈ tnew, 1 ≤ pr.2 ∧ pr.2 ≤ d) ∧
        (∀ pr ∈ tnew, pr = (q, d) ∨
          ∃ c p, get_person presp c = .ok p ∧ p.qid = pr.1 ∧
            is_alive_on p CUTOFF_DATE rb = true ∧ pr.1 ∈ st'.descendants) ∧
        (∀ x ∈ dnew, ∃ c p, get_person presp c = .ok p ∧ p.qid = x ∧
          is_alive_on p CUTOFF_DATE rb = true) := by
  intro d
  induction d with
  | zero =>
    intro q st st' h
    simp only [gather_descendants_alive, Except.ok.injEq] at h
    subst h
    exact ⟨[], [], by simp, by simp, by simp, by simp, by simp⟩
  | succ d ihd =>
    intro q st st' h
    simp only [gather_descendants_alive] at h
    cases hc : fetch_children_qids q (cresp q) with
    | error e => simp only [hc] at h; simp at h
    | ok children =>
      simp only [hc] at h
      have inner : ∀ (cs : List String) (s0 s' : DescState),
          cs.foldlM (fun (st : DescState) child =>
            match get_person presp child with
            | Except.error e => Except.error e
            | Except.ok childP =>
              if !is_alive_on childP CUTOFF_DATE rb then Except.ok st
              else if childP.qid ∈ st.descendants then Except.ok st
              else
                gather_descendants_alive presp cresp rb d childP.qid
                  { st with descendants := st.descendants ++ [childP.qid] }) s0
            = Except.ok s' →
          ∃ tnew dnew,
            s'.trace = s0.trace ++ tnew ∧
            s'.descendants = s0.descendants ++ dnew ∧
            (∀ pr ∈ tnew, 1 ≤ pr.2 ∧ pr.2 ≤ d) ∧
            (∀ pr ∈ tnew, ∃ c p, get_person presp c = .ok p ∧ p.qid = pr.1 ∧
              is_alive_on p CUTOFF_DATE rb = true ∧ pr.1 ∈ s'.descendants) ∧
            (∀ x ∈ dnew, ∃ c p, get_person presp c = .ok p ∧ p.qid = x ∧
              is_alive_on p CUTOFF_DATE rb = true) := by
        intro cs
        induction cs with
        | nil =>
          intro s0 s' h0
          simp only [List.foldlM_nil] at h0
          cases h0
          exact ⟨[], [], by simp, by simp, by simp, by simp, by simp⟩
        | cons c cs ihc =>
          intro s0 s' h0
          rw [List.foldlM_cons] at h0
          cases hpc : get_person presp c with
          | error e => simp only [hpc, except_bind_error] at h0; simp at h0
          | ok childP =>
            simp only [hpc] at h0
            by_cases halive : is_alive_on childP CUTOFF_DATE rb = true
            · simp only [halive, Bool.not_true, Bool.false_eq_true, if_false] at h0
              by_cases hmem : childP.qid ∈ s0.descendants
              · rw [if_pos hmem] at h0
                rw [except_bind_ok] at h0
                exact ihc s0 s' h0
              · rw [if_neg hmem] at h0
                cases hr : gather_descendants_alive presp cresp rb d childP.qid
                    { s0 with descendants := s0.descendants ++ [childP.qid] } with
                | error e => simp only [hr, except_bind_error] at h0; simp at h0
                | ok s1 =>
                  simp only [hr, except_bind_ok] at h0
                  obtain ⟨t1, d1, h1t, h1d, h1b, h1m, h1a⟩ := ihd childP.qid _ s1 hr
                  obtain ⟨t2, d2, h2t, h2d, h2b, h2m, h2a⟩ := ihc s1 s' h0
                  refine ⟨t1 ++ t2, childP.qid :: (d1 ++ d2), ?_, ?_, ?_, ?_, ?_⟩
                  · rw [h2t, h1t]
                    simp [List.append_assoc]
                  · rw [h2d, h1d]
                    simp [List.append_assoc]
                  · intro pr hpr
                    rcases List.mem_append.mp hpr with hm | hm
                    · exact ⟨(h1b pr hm).1, (h1b pr hm).2⟩
                    · exact h2b pr hm
                  · intro pr hpr
                    rcases List.mem_append.mp hpr with hm | hm
                    · rcases h1m pr hm with hhead | ⟨c', p', hgp, hq, hal, hin⟩
                      · subst hhead
                        refine ⟨c, childP, hpc, rfl, halive, ?_⟩
                        rw [h2d, h1d]
                        simp
                      · refine ⟨c', p', hgp, hq, hal, ?_⟩
                        rw [h2d]
                        simp [hin]
                    · exact h2m pr hm
                  · intro x hx
                    rcases List.mem_cons.mp hx with hm | hm
                    · subst hm
                      exact ⟨c, childP, hpc, rfl, halive⟩
                    rcases List.mem_append.mp hm with hm | hm
                    · exact h1a x hm
                    · exact h2a x hm
            · have halive' : is_alive_on childP CUTOFF_DATE rb = false :=
                Bool.eq_false_iff.mpr halive
              simp only [halive', Bool.not_false, if_true, except_bind_ok] at h0
              exact ihc s0 s' h0
      obtain ⟨t0, d0, h0t, h0d, h0b, h0m, h0a⟩ :=
        inner children { st with trace := st.trace ++ [(q, d + 1)] } st' h
      refine ⟨(q, d + 1) :: t0, d0, ?_, ?_, ?_, ?_, ?_⟩
      · rw [h0t]
        simp
      · rw [h0d]
      · intro pr hpr
        rcases List.mem_cons.mp hpr with hm | hm
        · subst hm
          omega
        · have := h0b pr hm
          omega
      · intro pr hpr
        rcases List.mem_cons.mp hpr with hm | hm
        · exact Or.inl hm
        · exact Or.inr (h0m pr hm)
      · exact h0a

/-- Claim C5: the descendant collector stops when the remaining-generation
bound reaches zero (the state is returned unchanged), every expansion is
either the initial call or a child that passed the liveness filter and
was included at that moment — so the subtree below an excluded child is
never visited — every expansion stays within the generation window,
every collected descendant passed the liveness filter, and the pipeline
gathers no descendants at all when the root fails the root-inclusion
decision. -/
theorem gather_descendants_spec :
    (∀ (presp : String → Option (List PBinding))
        (cresp : String → Option (List (Option String))) (rb : Bool)
        (q : String) (st : DescState),
      gather_descendants_alive presp cresp rb 0 q st = .ok st) ∧
    (∀ (presp : String → Option (List PBinding))
        (cresp : String → Option (List (Option String))) (rb : Bool)
        (d0 : Nat) (root : String) (st : DescState),
      gather_descendants_alive presp cresp rb d0 root ⟨[], []⟩ = .ok st →
      (∀ pr ∈ st.trace, 1 ≤ pr.2 ∧ pr.2 ≤ d0) ∧
      (∀ pr ∈ st.trace, pr = (root, d0) ∨
        ∃ c p, get_person presp c = .ok p ∧ p.qid = pr.1 ∧
          is_alive_on p CUTOFF_DATE rb = true ∧ pr.1 ∈ st.descendants) ∧
      (∀ x ∈ st.descendants, ∃ c p, get_person presp c = .ok p ∧ p.qid = x ∧
        is_alive_on p CUTOFF_DATE rb = true)) ∧
    (∀ (presp : String → Option (List PBinding))
        (cresp : String → Option (List (Option String))) (cfg : PipeCfg)
        (root : String) (fuel : Nat) (res : PipeResult),
      emit_person_with_ancestors_and_descendants presp cresp cfg root fuel =
        some (.ok res) →
      res.includeRootEntry = false → res.descendant_qids = []) := by
  refine ⟨fun _ _ _ _ _ => rfl, ?_, ?_⟩
  · intro presp cresp rb d0 root st h
    obtain ⟨tnew, dnew, ht, hd, hb, hm, ha⟩ := gd_run presp cresp rb d0 root ⟨[], []⟩ st h
    have ht' : st.trace = tnew := by simpa using ht
    have hd' : st.descendants = dnew := by simpa using hd
    refine ⟨?_, ?_, ?_⟩
    · intro pr hpr
      exact hb pr (ht' ▸ hpr)
    · intro pr hpr
      exact hm pr (ht' ▸ hpr)
    · intro x hx
      exact ha x (hd' ▸ hx)
  · intro presp cresp cfg root fuel res h hflag
    simp only [emit_person_with_ancestors_and_descendants] at h
    cases hn : normalize_qid root with
    | error e => simp only [hn] at h; simp at h
    | ok rootQ =>
      simp only [hn] at h
      cases hp : get_person presp rootQ with
      | error e => simp only [hp] at h; simp at h
      | ok rootP =>
        simp only [hp] at h
        cases hg : gather_ancestors presp
            (cfg.include_root_if_not_alive || is_alive_on rootP CUTOFF_DATE false)
            cfg.max_ancestor_depth fuel rootQ 0 ⟨[], [], []⟩ with
        | none => simp only [hg] at h; simp at h
        | some r =>
          cases r with
          | error e => simp only [hg] at h; simp at h
          | ok ancSt =>
            simp only [hg] at h
            by_cases hin : (cfg.include_root_if_not_alive ||
                is_alive_on rootP CUTOFF_DATE false) = true
            · simp only [hin, if_true] at h
              cases hd2 : gather_descendants_alive presp cresp
                  cfg.descendants_require_birth cfg.max_descendant_depth rootQ ⟨[], []⟩ with
              | error e => simp only [hd2] at h; simp at h
              | ok descSt =>
                simp only [hd2] at h
                cases he : ensure_fathers presp cfg.ensure_fathers_depth
                    (ancSt.included ++
                      descSt.descendants.filter (fun q => q ∉ ancSt.included))
                    (ancSt.included ++
                      descSt.descendants.filter (fun q => q ∉ ancSt.included)) with
                | error e => simp only [he] at h; simp at h
                | ok allQids =>
                  simp only [he] at h
                  cases hm : emit_all presp cfg.render allQids fuel
                      (rootQ :: sortStrs descSt.descendants) ⟨⟨[], []⟩, []⟩ with
                  | none => simp only [hm] at h; simp at h
                  | some r2 =>
                    cases r2 with
                    | error e => simp only [hm] at h; simp at h
                    | ok emitSt =>
                      simp only [hm, Option.some.injEq, Except.ok.injEq] at h
                      subst h
                      simp at hflag
            · have hin' : (cfg.include_root_if_not_alive ||
                  is_alive_on rootP CUTOFF_DATE false) = false :=
                Bool.eq_false_iff.mpr hin
              simp only [hin', Bool.false_eq_true, if_false] at h
              cases he : ensure_fathers presp cfg.ensure_fathers_depth
                  (ancSt.included ++
                    (DescState.mk [] []).descendants.filter (fun q => q ∉ ancSt.included))
                  (ancSt.included ++
                    (DescState.mk [] []).descendants.filter (fun q => q ∉ ancSt.included)) with
              | error e => simp only [he] at h; simp at h
              | ok allQids =>
                simp only [he] at h
                cases hm : emit_all presp cfg.render allQids fuel
                    (sortStrs ancSt.included) ⟨⟨[], []⟩, []⟩ with
                | none => simp only [hm] at h; simp at h
                | some r2 =>
                  cases r2 with
                  | error e => simp only [hm] at h; simp at h
                  | ok emitSt =>
                    simp only [hm, Option.some.injEq, Except.ok.injEq] at h
                    subst h
                    rfl

/-- Witness for C5: with root `Q1`, the dead child `Q2` is skipped and its
own child `Q3` is never reached (only `Q4` is collected); the
zero-generation stop returns the state unchanged; and the dead-root
pipeline run gathers no descendants. -/
theorem gather_descendants_spec_witness :
    gather_descendants_alive oracleDescP oracleDescC true 0 "Q9" ⟨["X"], [("X", 9)]⟩ =
      .ok ⟨["X"], [("X", 9)]⟩ ∧
    ((∀ pr ∈ [("Q1", 3), ("Q4", 2)], 1 ≤ (pr : String × Nat).2 ∧ pr.2 ≤ 3) ∧
      (∀ pr ∈ [("Q1", 3), ("Q4", 2)], pr = ("Q1", 3) ∨
        ∃ c p, get_person oracleDescP c = .ok p ∧ p.qid = (pr : String × Nat).1 ∧
          is_alive_on p CUTOFF_DATE true = true ∧ pr.1 ∈ ["Q4"]) ∧
      (∀ x ∈ ["Q4"], ∃ c p, get_person oracleDescP c = .ok p ∧ p.qid = x ∧
        is_alive_on p CUTOFF_DATE true = true)) ∧
    PipeResult.descendant_qids
      ⟨false, [], [], [], []⟩ = [] :=
  ⟨gather_descendants_spec.1 oracleDescP oracleDescC true "Q9" ⟨["X"], [("X", 9)]⟩,
   gather_descendants_spec.2.1 oracleDescP oracleDescC true 3 "Q1"
     ⟨["Q4"], [("Q1", 3), ("Q4", 2)]⟩ rfl,
   gather_descendants_spec.2.2 oracleDead noChildren cfgPlain "Q1" 20
     ⟨false, [], [], [], []⟩ rfl rfl⟩

/-! ## C8: error propagation -/

theorem normalize_qid_error {q e : String} (h : normalize_qid q = .error e) :
    isInvalidIdError e := by
  unfold normalize_qid at h
  by_cases hf : isQidFormat (if pyStartsWith (pyStrip q) "http"
      then rsplitLastSlash (pyStrip q) else pyStrip q) = true
  · simp [hf] at h
  · simp only [hf, Bool.false_eq_true, if_false, Except.error.injEq] at h
    exact ⟨_, h.symm⟩

theorem fetch_person_error {q : String} {resp : Option (List PBinding)} {e : String}
    (h : fetch_person q resp = .error e) : isInvalidIdError e := by
  unfold fetch_person at h
  cases hn : normalize_qid q with
  | error e2 =>
    rw [hn] at h
    simp only [Except.error.injEq] at h
    subst h
    exact normalize_qid_error hn
  | ok q2 =>
    rw [hn] at h
    rcases resp with _ | ⟨_ | ⟨b, bs⟩⟩ <;> simp at h

theorem get_person_error {presp : String → Option (List PBinding)} {q e : String}
    (h : get_person presp q = .error e) : isInvalidIdError e := by
  unfold get_person at h
  cases hn : normalize_qid q with
  | error e2 =>
    rw [hn] at h
    simp only [Except.error.injEq] at h
    subst h
    exact normalize_qid_error hn
  | ok q2 =>
    rw [hn] at h
    exact fetch_person_error h

theorem fetch_children_error {q : String} {resp : Option (List (Option String))}
    {e : String} (h : fetch_children_qids q resp = .error e) : isInvalidIdError e := by
  unfold fetch_children_qids at h
  cases hn : normalize_qid q with
  | error e2 =>
    rw [hn] at h
    simp only [Except.error.injEq] at h
    subst h
    exact normalize_qid_error hn
  | ok q2 =>
    rw [hn] at h
    rcases resp with _ | bs <;> simp at h

theorem id_for_qid_error {presp : String → Option (List PBinding)} {idPre : String}
    {st : AllocSt} {q e : String} (h : id_for_qid presp idPre st q = .error e) :
    isInvalidIdError e := by
  unfold id_for_qid at h
  cases hn : normalize_qid q with
  | error e2 =>
    rw [hn] at h
    simp only [Except.error.injEq] at h
    subst h
    exact normalize_qid_error hn
  | ok q2 =>
    rw [hn] at h
    cases hl : assocLookup st.qid_to_char_id q2 with
    | some c => simp [hl] at h
    | none =>
      simp only [hl] at h
      cases hp : get_person presp q2 with
      | error e2 =>
        simp only [hp, Except.error.injEq] at h
        subst h
        exact get_person_error hp
      | ok person => simp [hp] at h

theorem parentRefLines_error {presp : String → Option (List PBinding)} {idPre : String}
    {st : AllocSt} {person : Person} {knownQids : Option (List String)} {e : String}
    (h : parentRefLines presp idPre st person knownQids = .error e) :
    isInvalidIdError e := by
  unfold parentRefLines at h
  cases hf : pyOpt person.father_qid with
  | some f =>
    simp only [hf] at h
    cases hif : id_for_qid presp idPre st f with
    | error e2 =>
      simp only [hif, Except.error.injEq] at h
      subst h
      exact id_for_qid_error hif
    | ok pr =>
      obtain ⟨fid, st1⟩ := pr
      simp only [hif] at h
      cases hmq : pyOpt person.mother_qid with
      | some m =>
        simp only [hmq] at h
        by_cases hk : inKnown knownQids m = true
        · rw [if_pos hk] at h
          cases him : id_for_qid presp idPre st1 m with
          | error e2 =>
            simp only [him, Except.error.injEq] at h
            subst h
            exact id_for_qid_error him
          | ok pr2 => simp [him] at h
        · rw [if_neg hk] at h
          simp at h
      | none => simp only [hmq] at h; simp at h
  | none =>
    simp only [hf] at h
    cases hmq : pyOpt person.mother_qid with
    | some m =>
      simp only [hmq] at h
      by_cases hk : inKnown knownQids m = true
      · rw [if_pos hk] at h
        cases him : id_for_qid presp idPre st m with
        | error e2 =>
          simp only [him, Except.error.injEq] at h
          subst h
          exact id_for_qid_error him
        | ok pr2 => simp [him] at h
      · rw [if_neg hk] at h
        simp at h
    | none => simp only [hmq] at h; simp at h

theorem render_character_entry_error {cfg : RenderCfg}
    {presp : String → Option (List PBinding)} {st : AllocSt} {person : Person}
    {char_id : String} {ipr : Bool} {knownQids : Option (List String)} {e : String}
    (h : render_character_entry cfg presp st person char_id ipr knownQids = .error e) :
    isInvalidIdError e := by
  unfold render_character_entry at h
  cases hb : ipr with
  | false => simp only [hb, Bool.false_eq_true, if_false] at h; simp at h
  | true =>
    simp only [hb, if_true] at h
    cases hpl : parentRefLines presp cfg.idPre st person knownQids with
    | error e2 =>
      simp only [hpl, Except.error.injEq] at h
      subst h
      exact parentRefLines_error hpl
    | ok pr =>
      obtain ⟨lines, st2⟩ := pr
      simp [hpl] at h

theorem gather_ancestors_error (presp : String → Option (List PBinding)) (incl : Bool)
    (maxD : Nat) :
    ∀ (fuel : Nat) (q : String) (d : Nat) (st : AncState) (e : String),
      gather_ancestors presp incl maxD fuel q d st = some (.error e) →
      isInvalidIdError e := by
  intro fuel
  induction fuel with
  | zero => intro q d st e h; simp [gather_ancestors] at h
  | succ n ih =>
    intro q d st e h
    simp only [gather_ancestors] at h
    cases hn : normalize_qid q with
    | error e2 =>
      simp only [hn, Option.some.injEq, Except.error.injEq] at h
      subst h
      exact normalize_qid_error hn
    | ok q2 =>
      simp only [hn] at h
      by_cases hv : q2 ∈ st.visited
      · rw [if_pos hv] at h
        simp at h
      · rw [if_neg hv] at h
        cases hp : get_person presp q2 with
        | error e2 =>
          simp only [hp, Option.some.injEq, Except.error.injEq] at h
          subst h
          exact get_person_error hp
        | ok person =>
          simp only [hp] at h
          by_cases hd : maxD ≤ d
          · rw [if_pos hd] at h
            simp at h
          · rw [if_neg hd] at h
            cases hf : pyOpt person.father_qid with
            | some f =>
              simp only [hf] at h
              cases hr1 : gather_ancestors presp incl maxD n f (d + 1)
                  { visited := st.visited ++ [q2],
                    included :=
                      if d = 0 then (if incl then st.included ++ [q2] else st.included)
                      else (if is_alive_on person CUTOFF_DATE true then st.included ++ [q2]
                            else st.included),
                    trace := st.trace ++ [(q2, d)] } with
              | none => simp only [hr1] at h; simp at h
              | some r1 =>
                cases r1 with
                | error e2 =>
                  simp only [hr1, Option.some.injEq, Except.error.injEq] at h
                  subst h
                  exact ih f (d + 1) _ e2 hr1
                | ok st3 =>
                  simp only [hr1] at h
                  cases hm : pyOpt person.mother_qid with
                  | some m => exact ih m (d + 1) st3 e (by rw [hm] at h; exact h)
                  | none => simp only [hm] at h; simp at h
            | none =>
              simp only [hf] at h
              cases hm : pyOpt person.mother_qid with
              | some m => exact ih m (d + 1) _ e (by rw [hm] at h; exact h)
              | none => simp only [hm] at h; simp at h

theorem gather_descendants_error (presp : String → Option (List PBinding))
    (cresp : String → Option (List (Option String))) (rb : Bool) :
    ∀ (d : Nat) (q : String) (st : DescState) (e : String),
      gather_descendants_alive presp cresp rb d q st = .error e →
      isInvalidIdError e := by
  intro d
  induction d with
  | zero => intro q st e h; simp [gather_descendants_alive] at h
  | succ d ihd =>
    intro q st e h
    simp only [gather_descendants_alive] at h
    cases hc : fetch_children_qids q (cresp q) with
    | error e2 =>
      simp only [hc, Except.error.injEq] at h
      subst h
      exact fetch_children_error hc
    | ok children =>
      simp only [hc] at h
      have inner : ∀ (cs : List String) (s0 : DescState),
          cs.foldlM (fun (st : DescState) child =>
            match get_person presp child with
            | Except.error e => Except.error e
            | Except.ok childP =>
              if !is_alive_on childP CUTOFF_DATE rb then Except.ok st
              else if childP.qid ∈ st.descendants then Except.ok st
              else
                gather_descendants_alive presp cresp rb d childP.qid
                  { st with descendants := st.descendants ++ [childP.qid] }) s0
            = Except.error e →
          isInvalidIdError e := by
        intro cs
        induction cs with
        | nil => intro s0 h0; simp [except_pure_eq] at h0
        | cons c cs ihc =>
          intro s0 h0
          rw [List.foldlM_cons] at h0
          cases hpc : get_person presp c with
          | error e2 =>
            simp only [hpc, except_bind_error, Except.error.injEq] at h0
            subst h0
            exact get_person_error hpc
          | ok childP =>
            simp only [hpc] at h0
            by_cases halive : is_alive_on childP CUTOFF_DATE rb = true
            · simp only [halive, Bool.not_true, Bool.false_eq_true, if_false] at h0
              by_cases hmem : childP.qid ∈ s0.descendants
              · rw [if_pos hmem, except_bind_ok] at h0
                exact ihc s0 h0
              · rw [if_neg hmem] at h0
                cases hr : gather_descendants_alive presp cresp rb d childP.qid
                    { s0 with descendants := s0.descendants ++ [childP.qid] } with
                | error e2 =>
                  simp only [hr, except_bind_error, Except.error.injEq] at h0
                  subst h0
                  exact ihd childP.qid _ e2 hr
                | ok s1 =>
                  simp only [hr, except_bind_ok] at h0
                  exact ihc s1 h0
            · have halive' : is_alive_on childP CUTOFF_DATE rb = false :=
                Bool.eq_false_iff.mpr halive
              simp only [halive', Bool.not_false, if_true, except_bind_ok] at h0
              exact ihc s0 h0
      exact inner children { st with trace := st.trace ++ [(q, d + 1)] } h

theorem ensure_round_fold_error {presp : String → Option (List PBinding)} :
    ∀ (frontier : List String) (acc : List String × List String) (e : String),
      frontier.foldlM (fun (acc : List String × List String) qid =>
        match get_person presp qid with
        | Except.error e => Except.error e
        | Except.ok person =>
          match pyOpt person.father_qid with
          | some f =>
            if f ∈ acc.1 then Except.ok acc else Except.ok (acc.1 ++ [f], acc.2 ++ [f])
          | none => Except.ok acc) acc = Except.error e →
      isInvalidIdError e := by
  intro frontier
  induction frontier with
  | nil => intro acc e h; simp [except_pure_eq] at h
  | cons q qs ih =>
    intro acc e h
    rw [List.foldlM_cons] at h
    cases hp : get_person presp q with
    | error e2 =>
      simp only [hp, except_bind_error, Except.error.injEq] at h
      subst h
      exact get_person_error hp
    | ok person =>
      simp only [hp] at h
      cases hf : pyOpt person.father_qid with
      | some f =>
        simp only [hf] at h
        by_cases hm : f ∈ acc.1
        · rw [if_pos hm, except_bind_ok] at h
          exact ih acc e h
        · rw [if_neg hm, except_bind_ok] at h
          exact ih _ e h
      | none =>
        simp only [hf, except_bind_ok] at h
        exact ih acc e h

theorem ensure_fathers_round_error {presp : String → Option (List PBinding)}
    {frontier allQids : List String} {e : String}
    (h : ensure_fathers_round presp frontier allQids = .error e) :
    isInvalidIdError e := by
  unfold ensure_fathers_round at h
  exact ensure_round_fold_error frontier (allQids, []) e h

theorem ensure_fathers_error {presp : String → Option (List PBinding)} :
    ∀ (n : Nat) (frontier allQids : List String) (e : String),
      ensure_fathers presp n frontier allQids = .error e → isInvalidIdError e := by
  intro n
  induction n with
  | zero => intro frontier allQids e h; simp [ensure_fathers] at h
  | succ n ih =>
    intro frontier allQids e h
    simp only [ensure_fathers] at h
    cases hr : ensure_fathers_round presp frontier allQids with
    | error e2 =>
      simp only [hr, Except.error.injEq] at h
      subst h
      exact ensure_fathers_round_error hr
    | ok pr =>
      obtain ⟨all', next⟩ := pr
      simp only [hr] at h
      by_cases hn : next = ([] : List String)
      · rw [if_pos hn] at h
        simp at h
      · rw [if_neg hn] at h
        exact ih next all' e h

theorem emit_parents_first_error (presp : String → Option (List PBinding))
    (cfg : RenderCfg) (allQids : List String) :
    ∀ (fuel : Nat) (st : EmitSt) (q e : String),
      emit_parents_first presp cfg allQids fuel st q = some (.error e) →
      isInvalidIdError e := by
  intro fuel
  induction fuel with
  | zero => intro st q e h; simp [emit_parents_first] at h
  | succ n ih =>
    intro st q e h
    simp only [emit_parents_first] at h
    cases hn : normalize_qid q with
    | error e2 =>
      simp only [hn, Option.some.injEq, Except.error.injEq] at h
      subst h
      exact normalize_qid_error hn
    | ok q2 =>
      simp only [hn] at h
      by_cases hv : q2 ∈ emittedQids st
      · rw [if_pos hv] at h
        simp at h
      · rw [if_neg hv] at h
        cases hp : get_person presp q2 with
        | error e2 =>
          simp only [hp, Option.some.injEq, Except.error.injEq] at h
          subst h
          exact get_person_error hp
        | ok person =>
          simp only [hp] at h
          have hstep : ∀ (st1 : EmitSt),
              (match id_for_qid presp cfg.idPre st1.alloc person.qid with
               | Except.error e => some (Except.error e)
               | Except.ok (charId, alloc1) =>
                 match render_character_entry cfg presp alloc1 person charId true
                     (some allQids) with
                 | Except.error e => some (Except.error e)
                 | Except.ok (lines, alloc2) =>
                   some (Except.ok (EmitSt.mk alloc2 (st1.out ++ [(q2, lines)])))) =
                some (Except.error e) →
              isInvalidIdError e := by
            intro st1 hfin
            cases hid : id_for_qid presp cfg.idPre st1.alloc person.qid with
            | error e2 =>
              simp only [hid, Option.some.injEq, Except.error.injEq] at hfin
              subst hfin
              exact id_for_qid_error hid
            | ok pr =>
              obtain ⟨charId, alloc1⟩ := pr
              simp only [hid] at hfin
              cases hrd : render_character_entry cfg presp alloc1 person charId true
                  (some allQids) with
              | error e2 =>
                simp only [hrd, Option.some.injEq, Except.error.injEq] at hfin
                subst hfin
                exact render_character_entry_error hrd
              | ok pr2 =>
                obtain ⟨lines, alloc2⟩ := pr2
                simp only [hrd] at hfin
                simp at hfin
          cases hf : pyOpt person.father_qid with
          | some f =>
            simp only [hf] at h
            by_cases hfa : f ∈ allQids
            · rw [if_pos hfa] at h
              cases hr1 : emit_parents_first presp cfg allQids n st f with
              | none => simp only [hr1] at h; simp at h
              | some r1 =>
                cases r1 with
                | error e2 =>
                  simp only [hr1, Option.some.injEq, Except.error.injEq] at h
                  subst h
                  exact ih st f e2 hr1
                | ok st1 =>
                  simp only [hr1] at h
                  cases hm : pyOpt person.mother_qid with
                  | some m =>
                    simp only [hm] at h
                    by_cases hma : m ∈ allQids
                    · rw [if_pos hma] at h
                      cases hr2 : emit_parents_first presp cfg allQids n st1 m with
                      | none => simp only [hr2] at h; simp at h
                      | some r2 =>
                        cases r2 with
                        | error e2 =>
                          simp only [hr2, Option.some.injEq, Except.error.injEq] at h
                          subst h
                          exact ih st1 m e2 hr2
                        | ok st2 =>
                          simp only [hr2] at h
                          exact hstep st2 h
                    · rw [if_neg hma] at h
                      exact hstep st1 h
                  | none =>
                    simp only [hm] at h
                    exact hstep st1 h
            · rw [if_neg hfa] at h
              cases hm : pyOpt person.mother_qid with
              | some m =>
                simp only [hm] at h
                by_cases hma : m ∈ allQids
                · rw [if_pos hma] at h
                  cases hr2 : emit_parents_first presp cfg allQids n st m with
                  | none => simp only [hr2] at h; simp at h
                  | some r2 =>
                    cases r2 with
                    | error e2 =>
                      simp only [hr2, Option.some.injEq, Except.error.injEq] at h
                      subst h
                      exact ih st m e2 hr2
                    | ok st2 =>
                      simp only [hr2] at h
                      exact hstep st2 h
                · rw [if_neg hma] at h
                  exact hstep st h
              | none =>
                simp only [hm] at h
                exact hstep st h
          | none =>
            simp only [hf] at h
            cases hm : pyOpt person.mother_qid with
            | some m =>
              simp only [hm] at h
              by_cases hma : m ∈ allQids
              · rw [if_pos hma] at h
                cases hr2 : emit_parents_first presp cfg allQids n st m with
                | none => simp only [hr2] at h; simp at h
                | some r2 =>
                  cases r2 with
                  | error e2 =>
                    simp only [hr2, Option.some.injEq, Except.error.injEq] at h
                    subst h
                    exact ih st m e2 hr2
                  | ok st2 =>
                    simp only [hr2] at h
                    exact hstep st2 h
              · rw [if_neg hma] at h
                exact hstep st h
            | none =>
              simp only [hm] at h
              exact hstep st h

theorem emit_all_error (presp : String → Option (List PBinding)) (cfg : RenderCfg)
    (allQids : List String) (fuel : Nat) :
    ∀ (starts : List String) (st : EmitSt) (e : String),
      emit_all presp cfg allQids fuel starts st = some (.error e) →
      isInvalidIdError e := by
  intro starts
  induction starts with
  | nil => intro st e h; simp [emit_all] at h
  | cons q qs ih =>
    intro st e h
    simp only [emit_all] at h
    cases hr : emit_parents_first presp cfg allQids fuel st q with
    | none => simp only [hr] at h; simp at h
    | some r =>
      cases r with
      | error e2 =>
        simp only [hr, Option.some.injEq, Except.error.injEq] at h
        subst h
        exact emit_parents_first_error presp cfg allQids fuel st q e2 hr
      | ok st1 =>
        simp only [hr] at h
        exact ih st1 e h

/-- Claim C8 (amended): every error that terminates a pipeline run is an
`InvalidIdentifier` error (`ValueError("Invalid QID: ...")`) — query
failures never terminate the run — but such an error is *not* limited to
the root input: parent identifiers returned by the oracle are not
validated at fetch time, so a malformed father or mother raises it later,
during ancestor traversal, lineage completion, identifier allocation or
emission (see the counterexample, where the root is valid). -/
theorem pipeline_errors_invalid_only :
    ∀ (presp : String → Option (List PBinding))
      (cresp : String → Option (List (Option String)))
      (cfg : PipeCfg) (root : String) (fuel : Nat) (e : String),
      emit_person_with_ancestors_and_descendants presp cresp cfg root fuel =
        some (.error e) →
      isInvalidIdError e := by
  intro presp cresp cfg root fuel e h
  simp only [emit_person_with_ancestors_and_descendants] at h
  cases hn : normalize_qid root with
  | error e2 =>
    simp only [hn, Option.some.injEq, Except.error.injEq] at h
    subst h
    exact normalize_qid_error hn
  | ok rootQ =>
    simp only [hn] at h
    cases hp : get_person presp rootQ with
    | error e2 =>
      simp only [hp, Option.some.injEq, Except.error.injEq] at h
      subst h
      exact get_person_error hp
    | ok rootP =>
      simp only [hp] at h
      cases hg : gather_ancestors presp
          (cfg.include_root_if_not_alive || is_alive_on rootP CUTOFF_DATE false)
          cfg.max_ancestor_depth fuel rootQ 0 ⟨[], [], []⟩ with
      | none => simp only [hg] at h; simp at h
      | some r =>
        cases r with
        | error e2 =>
          simp only [hg, Option.some.injEq, Except.error.injEq] at h
          subst h
          exact gather_ancestors_error presp _ _ fuel rootQ 0 ⟨[], [], []⟩ e2 hg
        | ok ancSt =>
          simp only [hg] at h
          by_cases hin : (cfg.include_root_if_not_alive ||
              is_alive_on rootP CUTOFF_DATE false) = true
          · simp only [hin, if_true] at h
            cases hd2 : gather_descendants_alive presp cresp
                cfg.descendants_require_birth cfg.max_descendant_depth rootQ ⟨[], []⟩ with
            | error e2 =>
              simp only [hd2, Option.some.injEq, Except.error.injEq] at h
              subst h
              exact gather_descendants_error presp cresp _ _ rootQ ⟨[], []⟩ e2 hd2
            | ok descSt =>
              simp only [hd2] at h
              cases he : ensure_fathers presp cfg.ensure_fathers_depth
                  (ancSt.included ++
                    descSt.descendants.filter (fun q => q ∉ ancSt.included))
                  (ancSt.included ++
                    descSt.descendants.filter (fun q => q ∉ ancSt.included)) with
              | error e2 =>
                simp only [he, Option.some.injEq, Except.error.injEq] at h
                subst h
                exact ensure_fathers_error _ _ _ e2 he
              | ok allQids =>
                simp only [he] at h
                cases hm : emit_all presp cfg.render allQids fuel
                    (rootQ :: sortStrs descSt.descendants) ⟨⟨[], []⟩, []⟩ with
                | none => simp only [hm] at h; simp at h
                | some r2 =>
                  cases r2 with
                  | error e2 =>
                    simp only [hm, Option.some.injEq, Except.error.injEq] at h
                    subst h
                    exact emit_all_error presp cfg.render allQids fuel _ _ e2 hm
                  | ok emitSt => simp only [hm] at h; simp at h
          · have hin' : (cfg.include_root_if_not_alive ||
                is_alive_on rootP CUTOFF_DATE false) = false :=
              Bool.eq_false_iff.mpr hin
            simp only [hin', Bool.false_eq_true, if_false] at h
            cases he : ensure_fathers presp cfg.ensure_fathers_depth
                (ancSt.included ++
                  (DescState.mk [] []).descendants.filter (fun q => q ∉ ancSt.included))
                (ancSt.included ++
                  (DescState.mk [] []).descendants.filter (fun q => q ∉ ancSt.included)) with
            | error e2 =>
              simp only [he, Option.some.injEq, Except.error.injEq] at h
              subst h
              exact ensure_fathers_error _ _ _ e2 he
            | ok allQids =>
              simp only [he] at h
              cases hm : emit_all presp cfg.render allQids fuel
                  (sortStrs ancSt.included) ⟨⟨[], []⟩, []⟩ with
              | none => simp only [hm] at h; simp at h
              | some r2 =>
                cases r2 with
                | error e2 =>
                  simp only [hm, Option.some.injEq, Except.error.injEq] at h
                  subst h
                  exact emit_all_error presp cfg.render allQids fuel _ _ e2 hm
                | ok emitSt => simp only [hm] at h; simp at h

/-- Witness for C8 (amended): the concrete run over `oracleBad`, whose
root is valid but whose father value is the malformed `X2`, terminates
with an error of the `InvalidIdentifier` shape. -/
theorem pipeline_errors_invalid_only_witness :
    isInvalidIdError "Invalid QID: X2" :=
  pipeline_errors_invalid_only oracleBad noChildren cfgPlain "Q1" 20 "Invalid QID: X2" rfl

/-- Counterexample to C8 as stated: the root `Q1` is perfectly valid
(`normalize_qid` accepts it), yet the run terminates with an
`InvalidIdentifier` error raised for the father value `X2` returned by
the query oracle during ancestor traversal — the claim that only a root
`InvalidIdentifier` may terminate the run is false. -/
theorem pipeline_root_valid_still_errors_counterexample :
    normalize_qid "Q1" = .ok "Q1" ∧
    emit_person_with_ancestors_and_descendants oracleBad noChildren cfgPlain "Q1" 20 =
      some (.error "Invalid QID: X2") :=
  ⟨rfl, rfl⟩

/-! ## C6: parent reference fields -/

theorem isPrefixOf_false_of_get_ne {pat l : List Char} {i : Nat}
    (hip : i < pat.length) (hne : pat[i]? ≠ l[i]?) :
    pat.isPrefixOf l = false := by
  by_cases h : pat.isPrefixOf l = true
  · exfalso
    obtain ⟨t, ht⟩ := List.isPrefixOf_iff_prefix.mp h
    apply hne
    rw [← ht, List.getElem?_append_left hip]
  · exact Bool.eq_false_iff.mpr h

theorem prefix_mismatch_append (pat pre rest : List Char) (i : Nat)
    (hip : i < pat.length) (hpre : i < pre.length) (hne : pat[i]? ≠ pre[i]?) :
    pat.isPrefixOf (pre ++ rest) = false := by
  apply isPrefixOf_false_of_get_ne hip
  rw [List.getElem?_append_left hpre]
  exact hne

theorem isPrefixOf_append_self (pat rest : List Char) :
    pat.isPrefixOf (pat ++ rest) = true :=
  List.isPrefixOf_iff_prefix.mpr ⟨rest, rfl⟩

theorem header_no_parent_line (pat : List Char) (char_id rest : String)
    (hp4 : pat[4]? = some ' ') (hp5 : pat[5]? = some ' ')
    (hlen : 5 < pat.length) (hsp : ¬ ' ' ∈ char_id.data) :
    pat.isPrefixOf ((("    " ++ char_id) ++ " = \x7b") ++ rest).data = false := by
  show pat.isPrefixOf ((("    ".data ++ char_id.data) ++ " = \x7b".data) ++ rest.data) = false
  rw [List.append_assoc, List.append_assoc]
  cases hc : char_id.data with
  | nil =>
    show pat.isPrefixOf ("     = \x7b".data ++ rest.data) = false
    apply prefix_mismatch_append pat _ _ 5 hlen (by decide)
    rw [hp5]
    decide
  | cons c0 cs =>
    have hc0 : c0 ≠ ' ' := by
      intro hcon
      apply hsp
      rw [hc, hcon]
      exact List.mem_cons_self ' ' cs
    show pat.isPrefixOf (("    ".data ++ [c0]) ++ (cs ++ (" = \x7b".data ++ rest.data))) =
      false
    apply prefix_mismatch_append pat _ _ 4 (by omega) (by simp)
    rw [hp4, List.getElem?_append_right (by decide : "    ".data.length ≤ 4)]
    simpa using Ne.symm hc0

theorem parent_line_false (pat pre rest : String) (i : Nat)
    (hip : i < pat.data.length) (hpre : i < pre.data.length)
    (hne : pat.data[i]? ≠ pre.data[i]?) :
    pat.data.isPrefixOf ((pre ++ rest).data) = false := by
  show pat.data.isPrefixOf (pre.data ++ rest.data) = false
  exact prefix_mismatch_append _ _ _ i hip hpre hne

theorem parent_line_false2 (pat pre mid rest : String) (i : Nat)
    (hip : i < pat.data.length) (hpre : i < pre.data.length)
    (hne : pat.data[i]? ≠ pre.data[i]?) :
    pat.data.isPrefixOf (((pre ++ mid) ++ rest).data) = false := by
  show pat.data.isPrefixOf ((pre.data ++ mid.data) ++ rest.data) = false
  rw [List.append_assoc]
  exact prefix_mismatch_append _ _ _ i hip hpre hne

theorem isMotherLine_mother (mid : String) :
    isMotherLine ("        mother = " ++ mid) = true :=
  isPrefixOf_append_self "        mother = ".data mid.data

theorem isFatherLine_father (fid : String) :
    isFatherLine ("        father = " ++ fid) = true :=
  isPrefixOf_append_self "        father = ".data fid.data

theorem isMotherLine_father (fid : String) :
    isMotherLine ("        father = " ++ fid) = false :=
  parent_line_false _ _ _ 8 (by decide) (by decide) (by decide)

theorem isFatherLine_mother (mid : String) :
    isFatherLine ("        mother = " ++ mid) = false :=
  parent_line_false _ _ _ 8 (by decide) (by decide) (by decide)

theorem base_lines_no_mother (char_id hc nameTok cult rel : String)
    (hsp : ¬ ' ' ∈ char_id.data) :
    (["    " ++ char_id ++ " = \x7b" ++ hc,
      "        first_name = \x7b name = " ++ nameTok ++ " \x7d",
      "        culture = " ++ cult,
      "        religion = " ++ rel].any isMotherLine) = false := by
  simp only [List.any_cons, List.any_nil, Bool.or_false]
  rw [show isMotherLine ("    " ++ char_id ++ " = \x7b" ++ hc) =
        ("        mother = ".data).isPrefixOf
          ((("    " ++ char_id) ++ " = \x7b") ++ hc).data from rfl]
  rw [header_no_parent_line _ char_id hc (by decide) (by decide) (by decide) hsp]
  rw [show isMotherLine ("        first_name = \x7b name = " ++ nameTok ++ " \x7d") =
        ("        mother = ".data).isPrefixOf
          ((("        first_name = \x7b name = " ++ nameTok) ++ " \x7d").data) from rfl]
  rw [parent_line_false2 "        mother = " "        first_name = \x7b name = "
        nameTok " \x7d" 8 (by decide) (by decide) (by decide)]
  rw [show isMotherLine ("        culture = " ++ cult) =
        ("        mother = ".data).isPrefixOf (("        culture = " ++ cult).data) from rfl]
  rw [parent_line_false "        mother = " "        culture = " cult 8
        (by decide) (by decide) (by decide)]
  rw [show isMotherLine ("        religion = " ++ rel) =
        ("        mother = ".data).isPrefixOf (("        religion = " ++ rel).data) from rfl]
  rw [parent_line_false "        mother = " "        religion = " rel 8
        (by decide) (by decide) (by decide)]
  rfl

theorem base_lines_no_father (char_id hc nameTok cult rel : String)
    (hsp : ¬ ' ' ∈ char_id.data) :
    (["    " ++ char_id ++ " = \x7b" ++ hc,
      "        first_name = \x7b name = " ++ nameTok ++ " \x7d",
      "        culture = " ++ cult,
      "        religion = " ++ rel].any isFatherLine) = false := by
  simp only [List.any_cons, List.any_nil, Bool.or_false]
  rw [show isFatherLine ("    " ++ char_id ++ " = \x7b" ++ hc) =
        ("        father = ".data).isPrefixOf
          ((("    " ++ char_id) ++ " = \x7b") ++ hc).data from rfl]
  rw [header_no_parent_line _ char_id hc (by decide) (by decide) (by decide) hsp]
  rw [show isFatherLine ("        first_name = \x7b name = " ++ nameTok ++ " \x7d") =
        ("        father = ".data).isPrefixOf
          ((("        first_name = \x7b name = " ++ nameTok) ++ " \x7d").data) from rfl]
  rw [parent_line_false2 "        father = " "        first_name = \x7b name = "
        nameTok " \x7d" 9 (by decide) (by decide) (by decide)]
  rw [show isFatherLine ("        culture = " ++ cult) =
        ("        father = ".data).isPrefixOf (("        culture = " ++ cult).data) from rfl]
  rw [parent_line_false "        father = " "        culture = " cult 8
        (by decide) (by decide) (by decide)]
  rw [show isFatherLine ("        religion = " ++ rel) =
        ("        father = ".data).isPrefixOf (("        religion = " ++ rel).data) from rfl]
  rw [parent_line_false "        father = " "        religion = " rel 8
        (by decide) (by decide) (by decide)]
  rfl

theorem birth_date_lines_no_parent (person : Person) :
    (birth_date_lines person).any isMotherLine = false ∧
    (birth_date_lines person).any isFatherLine = false := by
  unfold birth_date_lines
  cases iso_to_eu_date person.birth with
  | none => simp
  | some eu =>
    simp only [List.any_cons, List.any_nil, Bool.or_false]
    constructor
    · exact parent_line_false "        mother = " "        birth_date = " eu 8
        (by decide) (by decide) (by decide)
    · exact parent_line_false "        father = " "        birth_date = " eu 8
        (by decide) (by decide) (by decide)

theorem death_date_lines_no_parent (person : Person) :
    (death_date_lines person).any isMotherLine = false ∧
    (death_date_lines person).any isFatherLine = false := by
  unfold death_date_lines
  cases iso_to_eu_date person.death with
  | none => simp
  | some eu =>
    cases parse_iso_date person.death with
    | none => simp
    | some dt =>
      by_cases hle : dateLe dt CUTOFF_DATE = true
      · simp only [hle, if_true, List.any_cons, List.any_nil, Bool.or_false]
        constructor
        · exact parent_line_false "        mother = " "        death_date = " eu 8
            (by decide) (by decide) (by decide)
        · exact parent_line_false "        father = " "        death_date = " eu 8
            (by decide) (by decide) (by decide)
      · have hle' : dateLe dt CUTOFF_DATE = false := Bool.eq_false_iff.mpr hle
        simp [hle']

theorem birth_loc_lines_no_parent (cfg : RenderCfg) (person : Person) :
    (birth_loc_lines cfg person).any isMotherLine = false ∧
    (birth_loc_lines cfg person).any isFatherLine = false := by
  unfold birth_loc_lines
  cases pyOpt cfg.birth_location with
  | some loc =>
    simp only [List.any_cons, List.any_nil, Bool.or_false]
    constructor
    · exact parent_line_false "        mother = " "        birth = " loc 8
        (by decide) (by decide) (by decide)
    · exact parent_line_false "        father = " "        birth = " loc 8
        (by decide) (by decide) (by decide)
  | none =>
    cases pyOpt person.birth_place_en with
    | none => simp
    | some pl =>
      simp only [List.any_cons, List.any_nil, Bool.or_false]
      constructor
      · exact parent_line_false "        mother = "
          "        # birth = <TODO>  # Wikidata birthplace: " pl 8
          (by decide) (by decide) (by decide)
      · exact parent_line_false "        father = "
          "        # birth = <TODO>  # Wikidata birthplace: " pl 8
          (by decide) (by decide) (by decide)

theorem dynasty_lines_no_parent (cfg : RenderCfg) :
    (dynasty_lines cfg).any isMotherLine = false ∧
    (dynasty_lines cfg).any isFatherLine = false := by
  unfold dynasty_lines
  cases pyOpt cfg.dynasty with
  | none => simp
  | some dy =>
    simp only [List.any_cons, List.any_nil, Bool.or_false]
    constructor
    · exact parent_line_false "        mother = " "        dynasty = " dy 8
        (by decide) (by decide) (by decide)
    · exact parent_line_false "        father = " "        dynasty = " dy 8
        (by decide) (by decide) (by decide)

theorem tag_lines_no_parent (cfg : RenderCfg) :
    (tag_lines cfg).any isMotherLine = false ∧
    (tag_lines cfg).any isFatherLine = false := by
  unfold tag_lines
  cases pyOpt cfg.tag with
  | none => simp
  | some tg =>
    simp only [List.any_cons, List.any_nil, Bool.or_false]
    constructor
    · exact parent_line_false "        mother = " "        tag = " tg 8
        (by decide) (by decide) (by decide)
    · exact parent_line_false "        father = " "        tag = " tg 8
        (by decide) (by decide) (by decide)

/-- Claim C6 (amended): in a rendered character entry the `mother =`
field appears exactly when the mother's external identifier is truthy
*and* a member of the known-identifier set (the final Inclusion Set at
emission time) — so an in-set mother is also printed before her child by
the parents-first emitter — but the `father =` field appears whenever the
father's external identifier is truthy, with *no* membership check, so a
father outside the final Inclusion Set is still referenced even though
his entry is never printed (a dangling reference; see the
counterexample). -/
theorem render_parent_fields
    (cfg : RenderCfg) (presp : String → Option (List PBinding)) (st : AllocSt)
    (person : Person) (char_id : String) (knowns : List String)
    (lines : List String) (st' : AllocSt)
    (hrun : render_character_entry cfg presp st person char_id true (some knowns) =
      .ok (lines, st'))
    (hsp : ¬ ' ' ∈ char_id.data) :
    ((lines.any isMotherLine = true) ↔
      ∃ m, pyOpt person.mother_qid = some m ∧ m ∈ knowns) ∧
    ((lines.any isFatherLine = true) ↔ ∃ f, pyOpt person.father_qid = some f) := by
  simp only [render_character_entry] at hrun
  rw [if_pos trivial] at hrun
  cases hpl : parentRefLines presp cfg.idPre st person (some knowns) with
  | error e => simp only [hpl] at hrun; simp at hrun
  | ok pr =>
    obtain ⟨parentL, stP⟩ := pr
    simp only [hpl, Except.ok.injEq, Prod.mk.injEq] at hrun
    obtain ⟨hlines, hstp⟩ := hrun
    subst hlines
    obtain ⟨hb1, hb2⟩ := birth_date_lines_no_parent person
    obtain ⟨hd1, hd2⟩ := death_date_lines_no_parent person
    obtain ⟨hl1, hl2⟩ := birth_loc_lines_no_parent cfg person
    obtain ⟨hy1, hy2⟩ := dynasty_lines_no_parent cfg
    obtain ⟨ht1, ht2⟩ := tag_lines_no_parent cfg
    have hbm := base_lines_no_mother char_id (header_comment_str person)
      (make_name_token person cfg.namePre cfg.nameFallbackPre) cfg.culture cfg.religion hsp
    have hbf := base_lines_no_father char_id (header_comment_str person)
      (make_name_token person cfg.namePre cfg.nameFallbackPre) cfg.culture cfg.religion hsp
    have hclose1 : isMotherLine "    \x7d" = false := by decide
    have hclose2 : isFatherLine "    \x7d" = false := by decide
    unfold parentRefLines at hpl
    cases hf : pyOpt person.father_qid with
    | some f =>
      simp only [hf] at hpl
      cases hidf : id_for_qid presp cfg.idPre st f with
      | error e => simp only [hidf] at hpl; simp at hpl
      | ok pr1 =>
        obtain ⟨fid, st1⟩ := pr1
        simp only [hidf] at hpl
        cases hm : pyOpt person.mother_qid with
        | some m =>
          simp only [hm] at hpl
          by_cases hk : inKnown (some knowns) m = true
          · rw [if_pos hk] at hpl
            cases hidm : id_for_qid presp cfg.idPre st1 m with
            | error e => simp only [hidm] at hpl; simp at hpl
            | ok pr2 =>
              obtain ⟨mid, st2⟩ := pr2
              simp only [hidm, Except.ok.injEq, Prod.mk.injEq] at hpl
              obtain ⟨hPL, -⟩ := hpl
              subst hPL
              constructor
              · simp only [List.any_append, List.any_cons, List.any_nil, hbm, hb1, hd1,
                  hl1, hy1, ht1, hclose1, isMotherLine_father, isMotherLine_mother,
                  Bool.false_or, Bool.or_false]
                simp only [true_iff]
                exact ⟨m, rfl, by simpa [inKnown] using hk⟩
              · simp only [List.any_append, List.any_cons, List.any_nil, hbf, hb2, hd2,
                  hl2, hy2, ht2, hclose2, isFatherLine_father, isFatherLine_mother,
                  Bool.false_or, Bool.or_false]
                simp only [true_iff]
                exact ⟨f, rfl⟩
          · rw [if_neg hk] at hpl
            simp only [Except.ok.injEq, Prod.mk.injEq] at hpl
            obtain ⟨hPL, -⟩ := hpl
            subst hPL
            constructor
            · simp only [List.any_append, List.any_cons, List.any_nil, hbm, hb1, hd1,
                hl1, hy1, ht1, hclose1, isMotherLine_father,
                Bool.false_or, Bool.or_false]
              simp only [Bool.false_eq_true, false_iff]
              rintro ⟨m', hm', hmem⟩
              cases hm'
              exact hk (by simpa [inKnown] using hmem)
            · simp only [List.any_append, List.any_cons, List.any_nil, hbf, hb2, hd2,
                hl2, hy2, ht2, hclose2, isFatherLine_father,
                Bool.false_or, Bool.or_false]
              simp only [true_iff]
              exact ⟨f, rfl⟩
        | none =>
          simp only [hm, Except.ok.injEq, Prod.mk.injEq] at hpl
          obtain ⟨hPL, -⟩ := hpl
          subst hPL
          constructor
          · simp only [List.any_append, List.any_cons, List.any_nil, hbm, hb1, hd1,
              hl1, hy1, ht1, hclose1, isMotherLine_father,
              Bool.false_or, Bool.or_false]
            simp only [Bool.false_eq_true, false_iff]
            rintro ⟨m', hm', -⟩
            exact absurd hm' (by simp)
          · simp only [List.any_append, List.any_cons, List.any_nil, hbf, hb2, hd2,
              hl2, hy2, ht2, hclose2, isFatherLine_father,
              Bool.false_or, Bool.or_false]
            simp only [true_iff]
            exact ⟨f, rfl⟩
    | none =>
      simp only [hf] at hpl
      cases hm : pyOpt person.mother_qid with
      | some m =>
        simp only [hm] at hpl
        by_cases hk : inKnown (some knowns) m = true
        · rw [if_pos hk] at hpl
          cases hidm : id_for_qid presp cfg.idPre st m with
          | error e => simp only [hidm] at hpl; simp at hpl
          | ok pr2 =>
            obtain ⟨mid, st2⟩ := pr2
            simp only [hidm, Except.ok.injEq, Prod.mk.injEq] at hpl
            obtain ⟨hPL, -⟩ := hpl
            subst hPL
            constructor
            · simp only [List.any_append, List.any_cons, List.any_nil, hbm, hb1, hd1,
                hl1, hy1, ht1, hclose1, isMotherLine_mother,
                Bool.false_or, Bool.or_false]
              simp only [true_iff]
              exact ⟨m, rfl, by simpa [inKnown] using hk⟩
            · simp only [List.any_append, List.any_cons, List.any_nil, hbf, hb2, hd2,
                hl2, hy2, ht2, hclose2, isFatherLine_mother,
                Bool.false_or, Bool.or_false]
              simp only [Bool.false_eq_true, false_iff]
              rintro ⟨f', hf'⟩
              exact absurd hf' (by simp)
        · rw [if_neg hk] at hpl
          simp only [Except.ok.injEq, Prod.mk.injEq] at hpl
          obtain ⟨hPL, -⟩ := hpl
          subst hPL
          constructor
          · simp only [List.any_append, List.any_cons, List.any_nil, hbm, hb1, hd1,
              hl1, hy1, ht1, hclose1, Bool.false_or, Bool.or_false]
            simp only [Bool.false_eq_true, false_iff]
            rintro ⟨m', hm', hmem⟩
            cases hm'
            exact hk (by simpa [inKnown] using hmem)
          · simp only [List.any_append, List.any_cons, List.any_nil, hbf, hb2, hd2,
              hl2, hy2, ht2, hclose2, Bool.false_or, Bool.or_false]
            simp only [Bool.false_eq_true, false_iff]
            rintro ⟨f', hf'⟩
            exact absurd hf' (by simp)
      | none =>
        simp only [hm, Except.ok.injEq, Prod.mk.injEq] at hpl
        obtain ⟨hPL, -⟩ := hpl
        subst hPL
        constructor
        · simp only [List.any_append, List.any_cons, List.any_nil, hbm, hb1, hd1,
            hl1, hy1, ht1, hclose1, Bool.false_or, Bool.or_false]
          simp only [Bool.false_eq_true, false_iff]
          rintro ⟨m', hm', -⟩
          exact absurd hm' (by simp)
        · simp only [List.any_append, List.any_cons, List.any_nil, hbf, hb2, hd2,
            hl2, hy2, ht2, hclose2, Bool.false_or, Bool.or_false]
          simp only [Bool.false_eq_true, false_iff]
          rintro ⟨f', hf'⟩
          exact absurd hf' (by simp)

/-- Witness for C6 (amended), the half-sibling scenario: `Q5` and `Q6`
share the father `Q2`; `Q5`'s mother `Q7` is not in the known set, so
its entry carries a `father =` line and no `mother =` line, while `Q6`'s
mother `Q3` is in the set and both lines appear. -/
theorem render_parent_fields_witness :
    ((["    wd_alpha = \x7b (Q5)", "        first_name = \x7b name = name_alpha \x7d",
        "        culture = saigoku_culture", "        religion = shinto",
        "        father = wd_beta", "    \x7d"].any isMotherLine = true) ↔
      ∃ m, pyOpt (Person.mother_qid
        ⟨"Q5", some "Alpha", none, none, none, some "Q2", some "Q7", none⟩) = some m ∧
        m ∈ ["Q2", "Q5"]) ∧
    ((["    wd_alpha = \x7b (Q5)", "        first_name = \x7b name = name_alpha \x7d",
        "        culture = saigoku_culture", "        religion = shinto",
        "        father = wd_beta", "    \x7d"].any isFatherLine = true) ↔
      ∃ f, pyOpt (Person.father_qid
        ⟨"Q5", some "Alpha", none, none, none, some "Q2", some "Q7", none⟩) = some f) ∧
    ((["    wd_gamma = \x7b (Q6)", "        first_name = \x7b name = name_gamma \x7d",
        "        culture = saigoku_culture", "        religion = shinto",
        "        father = wd_beta", "        mother = wd_gamma", "    \x7d"].any
          isMotherLine = true) ↔
      ∃ m, pyOpt (Person.mother_qid
        ⟨"Q6", some "Gamma", none, none, none, some "Q2", some "Q3", none⟩) = some m ∧
        m ∈ ["Q2", "Q3", "Q6"]) :=
  ⟨(render_parent_fields defaultRender oracleGap ⟨[], []⟩
      ⟨"Q5", some "Alpha", none, none, none, some "Q2", some "Q7", none⟩ "wd_alpha"
      ["Q2", "Q5"] _ _ rfl (by decide)).1,
   (render_parent_fields defaultRender oracleGap ⟨[], []⟩
      ⟨"Q5", some "Alpha", none, none, none, some "Q2", some "Q7", none⟩ "wd_alpha"
      ["Q2", "Q5"] _ _ rfl (by decide)).2,
   (render_parent_fields defaultRender oracleGap ⟨[], []⟩
      ⟨"Q6", some "Gamma", none, none, none, some "Q2", some "Q3", none⟩ "wd_gamma"
      ["Q2", "Q3", "Q6"] _ _ rfl (by decide)).1⟩

/-- Counterexample to C6 as stated: in the `oracleGap` pipeline run only
`Q1` is printed (as `wd_alpha`), yet its entry carries
`father = wd_beta` — a reference to a local identifier whose character
entry is never printed anywhere in the output, because the father `Q2`
is not a member of the final Inclusion Set and the father field, unlike
the mother field, is not guarded by membership. -/
theorem render_dangling_father_counterexample :
    emit_person_with_ancestors_and_descendants oracleGap noChildren cfgPlain "Q1" 20 =
      some (.ok gapResult) ∧
    gapResult.output.map Prod.fst = ["Q1"] ∧
    gapResult.output.any (fun pr => pr.2.any
      (fun l => l = "        father = wd_beta")) = true ∧
    gapResult.output.any (fun pr => pr.2.any
      (fun l => "    wd_beta = ".data.isPrefixOf l.data)) = false ∧
    "Q2" ∉ gapResult.all_qids :=
  ⟨rfl, rfl, by decide, by decide, by decide⟩

/-! ## C1: parents-first emission -/

theorem isNormFix_spec {s : String} (h : isNormFix s = true) :
    normalize_qid s = .ok s := by
  unfold isNormFix at h
  cases hn : normalize_qid s with
  | error e => rw [hn] at h; simp at h
  | ok t =>
    rw [hn] at h
    simp only [decide_eq_true_eq] at h
    exact congrArg Except.ok h

theorem parentsOkAt_spec {presp : String → Option (List PBinding)} {q : String}
    {p : Person} (h : parentsOkAt presp q = true) (hp : get_person presp q = .ok p) :
    (∀ f, pyOpt p.father_qid = some f → normalize_qid f = .ok f) ∧
    (∀ m, pyOpt p.mother_qid = some m → normalize_qid m = .ok m) := by
  unfold parentsOkAt at h
  rw [hp] at h
  simp only [Bool.and_eq_true] at h
  constructor
  · intro f hf
    rw [hf] at h
    exact isNormFix_spec h.1
  · intro m hm
    rw [hm] at h
    exact isNormFix_spec h.2

theorem rankOkAt_spec {presp : String → Option (List PBinding)} {A : List String}
    {rank : String → Nat} {q : String} {p : Person}
    (h : rankOkAt presp A rank q = true) (hp : get_person presp q = .ok p) :
    ∀ f ∈ A, (pyOpt p.father_qid = some f ∨ pyOpt p.mother_qid = some f) →
      rank f < rank q := by
  unfold rankOkAt at h
  rw [hp] at h
  intro f hfA hpar
  have := (List.all_eq_true.mp h) f hfA
  rw [if_pos hpar] at this
  exact of_decide_eq_true this

theorem emitPF_succ (presp : String → Option (List PBinding)) (rcfg : RenderCfg)
    (A : List String) (fuel : Nat) (st : EmitSt) (qid : String) :
    emit_parents_first presp rcfg A (fuel + 1) st qid =
      (match normalize_qid qid with
      | .error e => some (.error e)
      | .ok q =>
        if q ∈ emittedQids st then some (.ok st)
        else
          match get_person presp q with
          | .error e => some (.error e)
          | .ok person =>
            match (match pyOpt person.father_qid with
                   | some f =>
                     if f ∈ A then emit_parents_first presp rcfg A fuel st f
                     else some (.ok st)
                   | none => some (.ok st)) with
            | none => none
            | some (.error e) => some (.error e)
            | some (.ok st1) =>
              match (match pyOpt person.mother_qid with
                     | some m =>
                       if m ∈ A then emit_parents_first presp rcfg A fuel st1 m
                       else some (.ok st1)
                     | none => some (.ok st1)) with
              | none => none
              | some (.error e) => some (.error e)
              | some (.ok st2) =>
                match id_for_qid presp rcfg.idPre st2.alloc person.qid with
                | .error e => some (.error e)
                | .ok (charId, alloc1) =>
                  match render_character_entry rcfg presp alloc1 person charId true
                      (some A) with
                  | .error e => some (.error e)
                  | .ok (lines, alloc2) =>
                    some (.ok { alloc := alloc2, out := st2.out ++ [(q, lines)] })) := rfl

theorem emitPF_mono (presp : String → Option (List PBinding)) (rcfg : RenderCfg)
    (A : List String) :
    ∀ (n : Nat) (st : EmitSt) (q : String) (r : Except String EmitSt),
      emit_parents_first presp rcfg A n st q = some r →
      emit_parents_first presp rcfg A (n + 1) st q = some r := by
  intro n
  induction n with
  | zero => intro st q r h; simp [emit_parents_first] at h
  | succ n ih =>
    intro st q r h
    rw [emitPF_succ] at h
    rw [emitPF_succ]
    cases hn : normalize_qid q with
    | error e => simp only [hn] at h ⊢; exact h
    | ok q2 =>
      simp only [hn] at h ⊢
      by_cases hv : q2 ∈ emittedQids st
      · rw [if_pos hv] at h ⊢
        exact h
      · rw [if_neg hv] at h ⊢
        cases hp : get_person presp q2 with
        | error e => simp only [hp] at h ⊢; exact h
        | ok person =>
          simp only [hp] at h ⊢
          cases hf : pyOpt person.father_qid with
          | some f =>
            simp only [hf] at h ⊢
            by_cases hfa : f ∈ A
            · rw [if_pos hfa] at h ⊢
              cases hr1 : emit_parents_first presp rcfg A n st f with
              | none => simp only [hr1] at h; simp at h
              | some r1 =>
                simp only [hr1] at h
                simp only [ih st f r1 hr1]
                cases r1 with
                | error e => exact h
                | ok st1 =>
                  cases hm : pyOpt person.mother_qid with
                  | some m =>
                    simp only [hm] at h ⊢
                    by_cases hma : m ∈ A
                    · rw [if_pos hma] at h ⊢
                      cases hr2 : emit_parents_first presp rcfg A n st1 m with
                      | none => simp only [hr2] at h; simp at h
                      | some r2 =>
                        simp only [hr2] at h
                        simp only [ih st1 m r2 hr2]
                        exact h
                    · rw [if_neg hma] at h ⊢
                      exact h
                  | none =>
                    simp only [hm] at h ⊢
                    exact h
            · rw [if_neg hfa] at h ⊢
              cases hm : pyOpt person.mother_qid with
              | some m =>
                simp only [hm] at h ⊢
                by_cases hma : m ∈ A
                · rw [if_pos hma] at h ⊢
                  cases hr2 : emit_parents_first presp rcfg A n st m with
                  | none => simp only [hr2] at h; simp at h
                  | some r2 =>
                    simp only [hr2] at h
                    simp only [ih st m r2 hr2]
                    exact h
                · rw [if_neg hma] at h ⊢
                  exact h
              | none =>
                simp only [hm] at h ⊢
                exact h
          | none =>
            simp only [hf] at h ⊢
            cases hm : pyOpt person.mother_qid with
            | some m =>
              simp only [hm] at h ⊢
              by_cases hma : m ∈ A
              · rw [if_pos hma] at h ⊢
                cases hr2 : emit_parents_first presp rcfg A n st m with
                | none => simp only [hr2] at h; simp at h
                | some r2 =>
                  simp only [hr2] at h
                  simp only [ih st m r2 hr2]
                  exact h
              · rw [if_neg hma] at h ⊢
                exact h
            | none =>
              simp only [hm] at h ⊢
              exact h

theorem emitPF_mono_le (presp : String → Option (List PBinding)) (rcfg : RenderCfg)
    (A : List String) {m n : Nat} (hmn : m ≤ n) :
    ∀ {st : EmitSt} {q : String} {r : Except String EmitSt},
      emit_parents_first presp rcfg A m st q = some r →
      emit_parents_first presp rcfg A n st q = some r := by
  induction hmn with
  | refl => intro st q r h; exact h
  | step h2 ih =>
    intro st q r h
    exact emitPF_mono presp rcfg A _ st q r (ih h)

/-- Unfolding `emit_parents_first` by one fuel step, with the two parent
hops written through `parentStep`. -/
theorem emitPF_unfold (presp : String → Option (List PBinding)) (rcfg : RenderCfg)
    (A : List String) (fuel : Nat) (st : EmitSt) (qid : String) :
    emit_parents_first presp rcfg A (fuel + 1) st qid =
      (match normalize_qid qid with
      | .error e => some (.error e)
      | .ok q =>
        if q ∈ emittedQids st then some (.ok st)
        else
          match get_person presp q with
          | .error e => some (.error e)
          | .ok person =>
            match parentStep presp rcfg A fuel st (pyOpt person.father_qid) with
            | none => none
            | some (.error e) => some (.error e)
            | some (.ok st1) =>
              match parentStep presp rcfg A fuel st1 (pyOpt person.mother_qid) with
              | none => none
              | some (.error e) => some (.error e)
              | some (.ok st2) =>
                match id_for_qid presp rcfg.idPre st2.alloc person.qid with
                | .error e => some (.error e)
                | .ok (charId, alloc1) =>
                  match render_character_entry rcfg presp alloc1 person charId true
                      (some A) with
                  | .error e => some (.error e)
                  | .ok (lines, alloc2) =>
                    some (.ok { alloc := alloc2, out := st2.out ++ [(q, lines)] })) := rfl

/-- A successful parent hop is preserved when the fuel grows. -/
theorem parentStep_mono (presp : String → Option (List PBinding)) (rcfg : RenderCfg)
    (A : List String) {m n : Nat} (hmn : m ≤ n) (st : EmitSt) (fq : Option String)
    {r : Except String EmitSt} (h : parentStep presp rcfg A m st fq = some r) :
    parentStep presp rcfg A n st fq = some r := by
  cases fq with
  | none => exact h
  | some f =>
    simp only [parentStep] at h ⊢
    by_cases hfA : f ∈ A
    · rw [if_pos hfA] at h ⊢
      exact emitPF_mono_le presp rcfg A hmn h
    · rw [if_neg hfA] at h ⊢
      exact h

/-- On an already-normalized identifier `get_person` always succeeds, and
the returned person carries that identifier. -/
theorem get_person_ok (presp : String → Option (List PBinding)) (q : String)
    (hn : normalize_qid q = .ok q) :
    ∃ p, get_person presp q = .ok p ∧ p.qid = q := by
  unfold get_person fetch_person
  simp only [hn]
  cases presp q with
  | none => exact ⟨emptyPerson q, rfl, rfl⟩
  | some l =>
    cases l with
    | nil => exact ⟨emptyPerson q, rfl, rfl⟩
    | cons b rest => exact ⟨personOfBinding q b, rfl, rfl⟩

/-- On an already-normalized identifier the allocator always succeeds. -/
theorem id_for_qid_ok (presp : String → Option (List PBinding)) (pre : String)
    (st : AllocSt) (q : String) (hn : normalize_qid q = .ok q) :
    ∃ c st', id_for_qid presp pre st q = .ok (c, st') := by
  unfold id_for_qid
  simp only [hn]
  cases assocLookup st.qid_to_char_id q with
  | some c => exact ⟨c, st, rfl⟩
  | none =>
    obtain ⟨p, hp, _⟩ := get_person_ok presp q hn
    simp only [hp]
    exact ⟨_, _, rfl⟩

/-- When every truthy parent identifier of `p` is already normalized, the
parent reference lines always render. -/
theorem parentRefLines_ok (presp : String → Option (List PBinding)) (pre : String)
    (st : AllocSt) (p : Person) (kq : Option (List String))
    (hf : ∀ f, pyOpt p.father_qid = some f → normalize_qid f = .ok f)
    (hm : ∀ m, pyOpt p.mother_qid = some m → normalize_qid m = .ok m) :
    ∃ ls st', parentRefLines presp pre st p kq = .ok (ls, st') := by
  unfold parentRefLines
  cases hfq : pyOpt p.father_qid with
  | some f =>
    obtain ⟨c1, st1, h1⟩ := id_for_qid_ok presp pre st f (hf f hfq)
    simp only [h1]
    cases hmq : pyOpt p.mother_qid with
    | some m =>
      by_cases hk : inKnown kq m = true
      · simp only [if_pos hk]
        obtain ⟨c2, st2, h2⟩ := id_for_qid_ok presp pre st1 m (hm m hmq)
        simp only [h2]
        exact ⟨_, _, rfl⟩
      · simp only [if_neg hk]
        exact ⟨_, _, rfl⟩
    | none => exact ⟨_, _, rfl⟩
  | none =>
    cases hmq : pyOpt p.mother_qid with
    | some m =>
      by_cases hk : inKnown kq m = true
      · simp only [if_pos hk]
        obtain ⟨c2, st2, h2⟩ := id_for_qid_ok presp pre st m (hm m hmq)
        simp only [h2]
        exact ⟨_, _, rfl⟩
      · simp only [if_neg hk]
        exact ⟨_, _, rfl⟩
    | none => exact ⟨_, _, rfl⟩

/-- When every truthy parent identifier of `p` is already normalized, the
character entry always renders. -/
theorem render_ok (cfg : RenderCfg) (presp : String → Option (List PBinding))
    (st : AllocSt) (p : Person) (cid : String) (kq : Option (List String))
    (hf : ∀ f, pyOpt p.father_qid = some f → normalize_qid f = .ok f)
    (hm : ∀ m, pyOpt p.mother_qid = some m → normalize_qid m = .ok m) :
    ∃ ls st', render_character_entry cfg presp st p cid true kq = .ok (ls, st') := by
  obtain ⟨pls, st', h⟩ := parentRefLines_ok presp cfg.idPre st p kq hf hm
  unfold render_character_entry
  rw [if_pos rfl]
  simp only [h]
  exact ⟨_, _, rfl⟩

/-- The empty output trivially satisfies the parents-first property. -/
theorem parentsFirstIn_nil (presp : String → Option (List PBinding)) (A : List String) :
    parentsFirstIn presp A [] := by
  intro i x hx
  simp at hx

/-- Taking at most the first summand's length ignores the second. -/
theorem take_append_le {α : Type} (l1 l2 : List α) (n : Nat) (h : n ≤ l1.length) :
    (l1 ++ l2).take n = l1.take n := by
  rw [List.take_append_eq_append_take, Nat.sub_eq_zero_of_le h, List.take_zero,
    List.append_nil]

/-- Appending one entry preserves the parents-first property when each
in-set parent of the new entry is already present. -/
theorem parentsFirstIn_append (presp : String → Option (List PBinding)) (A : List String)
    (l : List String) (q : String) (h : parentsFirstIn presp A l)
    (hq : ∀ f, f ∈ A → isParentOf presp q f → f ∈ l) :
    parentsFirstIn presp A (l ++ [q]) := by
  intro i x hx f hfA hpar
  by_cases hi : i < l.length
  · have hx' : l[i]? = some x := by
      rw [← hx]
      exact (List.getElem?_append_left hi).symm
    have hf := h i x hx' f hfA hpar
    rw [take_append_le l [q] i (Nat.le_of_lt hi)]
    exact hf
  · have hlen : i < l.length + 1 := by
      by_contra hc
      have hnone : (l ++ [q])[i]? = none := by
        apply List.getElem?_eq_none
        simp only [List.length_append, List.length_singleton]
        omega
      rw [hnone] at hx
      cases hx
    have hieq : i = l.length := by omega
    subst hieq
    have hgq : (l ++ [q])[l.length]? = some q := by
      rw [List.getElem?_append_right (Nat.le_refl _)]
      simp
    rw [hgq] at hx
    obtain rfl := Option.some.inj hx
    have hf := hq f hfA hpar
    rw [take_append_le l [q] l.length (Nat.le_refl _), List.take_length]
    exact hf

/-- Appending a fresh element preserves `Nodup`. -/
theorem nodup_append_singleton {α : Type} {l : List α} {a : α}
    (h : l.Nodup) (ha : a ∉ l) : (l ++ [a]).Nodup := by
  refine List.Nodup.append h (List.nodup_singleton a) ?_
  intro x hx hx'
  rw [List.mem_singleton] at hx'
  subst hx'
  exact ha hx

/-- One full successful step of the emitter: both parent hops done, the
entry allocated and rendered, the identifier appended to the output. -/
theorem emitPF_step (presp : String → Option (List PBinding)) (rcfg : RenderCfg)
    (A : List String) {n1 n2 : Nat} {st st1 st2 : EmitSt} {q : String} {p : Person}
    (hn : normalize_qid q = .ok q) (hq : q ∉ emittedQids st)
    (hp : get_person presp q = .ok p)
    (h1 : parentStep presp rcfg A n1 st (pyOpt p.father_qid) = some (.ok st1))
    (h2 : parentStep presp rcfg A n2 st1 (pyOpt p.mother_qid) = some (.ok st2))
    {c : String} {a1 : AllocSt}
    (hid : id_for_qid presp rcfg.idPre st2.alloc p.qid = .ok (c, a1))
    {lines : List String} {a2 : AllocSt}
    (hr : render_character_entry rcfg presp a1 p c true (some A) = .ok (lines, a2)) :
    emit_parents_first presp rcfg A (n1 + n2 + 1) st q =
      some (.ok ⟨a2, st2.out ++ [(q, lines)]⟩) := by
  rw [emitPF_unfold]
  simp only [hn]
  rw [if_neg hq]
  simp only [hp,
    parentStep_mono presp rcfg A (Nat.le_add_right n1 n2) st (pyOpt p.father_qid) h1,
    parentStep_mono presp rcfg A (Nat.le_add_left n2 n1) st1 (pyOpt p.mother_qid) h2,
    hid, hr]

/-- Main induction for the emitter, on a strict upper bound for the rank:
when every member of `A` is normalized, has normalized truthy parents and
a rank strictly decreasing along in-`A` parent links, emitting any member
from any state satisfying the invariant succeeds for some fuel, prints
that member, extends the output only by members of `A` of rank at most
the member's, and preserves the invariant. -/
theorem emit_ranked (presp : String → Option (List PBinding)) (rcfg : RenderCfg)
    (A : List String) (rank : String → Nat)
    (HA1 : ∀ q ∈ A, isNormFix q = true) (HA2 : ∀ q ∈ A, parentsOkAt presp q = true)
    (HA3 : ∀ q ∈ A, rankOkAt presp A rank q = true) :
    ∀ (k : Nat) (q : String), q ∈ A → rank q < k → ∀ st : EmitSt, emitInv presp A st →
      ∃ n st', emit_parents_first presp rcfg A n st q = some (.ok st') ∧
        emitExt A rank (rank q) st st' ∧ q ∈ emittedQids st' ∧ emitInv presp A st' := by
  intro k
  induction k with
  | zero => intro q _ hqk; exact absurd hqk (Nat.not_lt_zero _)
  | succ k ih =>
    intro q hqA hqk st hinv
    have hn : normalize_qid q = .ok q := isNormFix_spec (HA1 q hqA)
    by_cases hqe : q ∈ emittedQids st
    · refine ⟨0 + 1, st, ?_, ⟨[], (List.append_nil _).symm, by simp⟩, hqe, hinv⟩
      rw [emitPF_unfold]
      simp only [hn]
      rw [if_pos hqe]
    · obtain ⟨p, hp, hpq⟩ := get_person_ok presp q hn
      have hpar := parentsOkAt_spec (HA2 q hqA) hp
      have hrank := rankOkAt_spec (HA3 q hqA) hp
      have FATHER : ∃ n1 st1,
          parentStep presp rcfg A n1 st (pyOpt p.father_qid) = some (.ok st1) ∧
          (∃ new, emittedQids st1 = emittedQids st ++ new ∧
            ∀ x ∈ new, x ∈ A ∧ rank x < rank q) ∧
          (∀ f, pyOpt p.father_qid = some f → f ∈ A → f ∈ emittedQids st1) ∧
          emitInv presp A st1 := by
        cases hfq : pyOpt p.father_qid with
        | none =>
          refine ⟨0, st, rfl, ⟨[], (List.append_nil _).symm, by simp⟩, ?_, hinv⟩
          intro f hff
          simp at hff
        | some f =>
          by_cases hfA : f ∈ A
          · have hrf : rank f < rank q := hrank f hfA (Or.inl hfq)
            obtain ⟨n1, st1, hrun, hext, hmemf, hinv1⟩ := ih f hfA (by omega) st hinv
            refine ⟨n1, st1, ?_, ?_, ?_, hinv1⟩
            · simp only [parentStep]
              rw [if_pos hfA]
              exact hrun
            · obtain ⟨new, he, hb⟩ := hext
              exact ⟨new, he, fun x hx =>
                ⟨(hb x hx).1, Nat.lt_of_le_of_lt (hb x hx).2 hrf⟩⟩
            · intro f' hf' _
              obtain rfl := Option.some.inj hf'
              exact hmemf
          · refine ⟨0, st, ?_, ⟨[], (List.append_nil _).symm, by simp⟩, ?_, hinv⟩
            · simp only [parentStep]
              rw [if_neg hfA]
            · intro f' hf' hf'A
              obtain rfl := Option.some.inj hf'
              exact absurd hf'A hfA
      obtain ⟨n1, st1, h1, hext1, hmem1, hinv1⟩ := FATHER
      have MOTHER : ∃ n2 st2,
          parentStep presp rcfg A n2 st1 (pyOpt p.mother_qid) = some (.ok st2) ∧
          (∃ new, emittedQids st2 = emittedQids st1 ++ new ∧
            ∀ x ∈ new, x ∈ A ∧ rank x < rank q) ∧
          (∀ m, pyOpt p.mother_qid = some m → m ∈ A → m ∈ emittedQids st2) ∧
          emitInv presp A st2 := by
        cases hmq : pyOpt p.mother_qid with
        | none =>
          refine ⟨0, st1, rfl, ⟨[], (List.append_nil _).symm, by simp⟩, ?_, hinv1⟩
          intro m hmm
          simp at hmm
        | some m =>
          by_cases hmA : m ∈ A
          · have hrm : rank m < rank q := hrank m hmA (Or.inr hmq)
            obtain ⟨n2, st2, hrun, hext, hmemm, hinv2⟩ := ih m hmA (by omega) st1 hinv1
            refine ⟨n2, st2, ?_, ?_, ?_, hinv2⟩
            · simp only [parentStep]
              rw [if_pos hmA]
              exact hrun
            · obtain ⟨new, he, hb⟩ := hext
              exact ⟨new, he, fun x hx =>
                ⟨(hb x hx).1, Nat.lt_of_le_of_lt (hb x hx).2 hrm⟩⟩
            · intro m' hm' _
              obtain rfl := Option.some.inj hm'
              exact hmemm
          · refine ⟨0, st1, ?_, ⟨[], (List.append_nil _).symm, by simp⟩, ?_, hinv1⟩
            · simp only [parentStep]
              rw [if_neg hmA]
            · intro m' hm' hm'A
              obtain rfl := Option.some.inj hm'
              exact absurd hm'A hmA
      obtain ⟨n2, st2, h2, hext2, hmem2, hinv2⟩ := MOTHER
      obtain ⟨c, a1, hid0⟩ := id_for_qid_ok presp rcfg.idPre st2.alloc q hn
      have hid : id_for_qid presp rcfg.idPre st2.alloc p.qid = .ok (c, a1) := by
        rw [hpq]
        exact hid0
      obtain ⟨lines, a2, hr⟩ := render_ok rcfg presp a1 p c (some A) hpar.1 hpar.2
      have hstep := emitPF_step presp rcfg A hn hqe hp h1 h2 hid hr
      have hout : emittedQids ⟨a2, st2.out ++ [(q, lines)]⟩ = emittedQids st2 ++ [q] := by
        simp [emittedQids]
      obtain ⟨new1, he1, hb1⟩ := hext1
      obtain ⟨new2, he2, hb2⟩ := hext2
      have hq2 : q ∉ emittedQids st2 := by
        rw [he2, he1]
        intro hmem
        rcases List.mem_append.mp hmem with hmem' | hmem'
        · rcases List.mem_append.mp hmem' with h'' | h''
          · exact hqe h''
          · exact Nat.lt_irrefl _ (hb1 q h'').2
        · exact Nat.lt_irrefl _ (hb2 q hmem').2
      refine ⟨n1 + n2 + 1, ⟨a2, st2.out ++ [(q, lines)]⟩, hstep, ?_, ?_, ?_⟩
      · refine ⟨new1 ++ new2 ++ [q], ?_, ?_⟩
        · rw [hout, he2, he1]
          simp [List.append_assoc]
        · intro x hx
          rcases List.mem_append.mp hx with hx' | hx'
          · rcases List.mem_append.mp hx' with h'' | h''
            · exact ⟨(hb1 x h'').1, Nat.le_of_lt (hb1 x h'').2⟩
            · exact ⟨(hb2 x h'').1, Nat.le_of_lt (hb2 x h'').2⟩
          · rw [List.mem_singleton] at hx'
            subst hx'
            exact ⟨hqA, Nat.le_refl _⟩
      · rw [hout]
        exact List.mem_append_right _ (List.mem_singleton.mpr rfl)
      · refine ⟨?_, ?_, ?_⟩
        · rw [hout]
          exact nodup_append_singleton hinv2.1 hq2
        · rw [hout]
          refine parentsFirstIn_append presp A _ q hinv2.2.1 ?_
          intro f hfA hparf
          obtain ⟨p', hp', hc⟩ := hparf
          rw [hp] at hp'
          obtain rfl := Except.ok.inj hp'
          rcases hc with hcf | hcm
          · have hm1 := hmem1 f hcf hfA
            rw [he2]
            exact List.mem_append_left _ hm1
          · exact hmem2 f hcm hfA
        · rw [hout]
          intro x hx
          rcases List.mem_append.mp hx with hx' | hx'
          · exact hinv2.2.2 x hx'
          · rw [List.mem_singleton] at hx'
            subst hx'
            exact hqA

/-- A finished top-level emission run is preserved when the fuel grows. -/
theorem emit_all_mono (presp : String → Option (List PBinding)) (rcfg : RenderCfg)
    (A : List String) {m n : Nat} (hmn : m ≤ n) :
    ∀ (qs : List String) (st : EmitSt) (r : Except String EmitSt),
      emit_all presp rcfg A m qs st = some r → emit_all presp rcfg A n qs st = some r := by
  intro qs
  induction qs with
  | nil => intro st r h; exact h
  | cons q qs ihq =>
    intro st r h
    simp only [emit_all] at h ⊢
    cases hpf : emit_parents_first presp rcfg A m st q with
    | none => simp only [hpf] at h; simp at h
    | some r1 =>
      simp only [hpf] at h
      rw [emitPF_mono_le presp rcfg A hmn hpf]
      cases r1 with
      | error e => exact h
      | ok st1 => exact ihq st1 r h

/-- Folding the emitter over a list of in-`A` start identifiers from an
invariant-satisfying state succeeds for some fuel, prints every start,
preserves the invariant, and only extends the output. -/
theorem emit_all_ranked (presp : String → Option (List PBinding)) (rcfg : RenderCfg)
    (A : List String) (rank : String → Nat)
    (HA1 : ∀ q ∈ A, isNormFix q = true) (HA2 : ∀ q ∈ A, parentsOkAt presp q = true)
    (HA3 : ∀ q ∈ A, rankOkAt presp A rank q = true) :
    ∀ (starts : List String), (∀ s ∈ starts, s ∈ A) → ∀ st : EmitSt, emitInv presp A st →
      ∃ n st', emit_all presp rcfg A n starts st = some (.ok st') ∧
        emitInv presp A st' ∧ (∀ s ∈ starts, s ∈ emittedQids st') ∧
        ∃ new, emittedQids st' = emittedQids st ++ new := by
  intro starts
  induction starts with
  | nil =>
    intro _ st hinv
    exact ⟨0, st, rfl, hinv, by simp, [], (List.append_nil _).symm⟩
  | cons s ss ihs =>
    intro hss st hinv
    obtain ⟨n1, st1, h1, hext1, hmems, hinv1⟩ :=
      emit_ranked presp rcfg A rank HA1 HA2 HA3 (rank s + 1) s
        (hss s (List.mem_cons_self s ss)) (Nat.lt_succ_self _) st hinv
    obtain ⟨n2, st2, h2, hinv2, hmem2, hext2⟩ :=
      ihs (fun x hx => hss x (List.mem_cons_of_mem s hx)) st1 hinv1
    refine ⟨n1 + n2, st2, ?_, hinv2, ?_, ?_⟩
    · simp only [emit_all]
      rw [emitPF_mono_le presp rcfg A (Nat.le_add_right n1 n2) h1]
      exact emit_all_mono presp rcfg A (Nat.le_add_left n2 n1) ss st1 _ h2
    · intro x hx
      rcases List.mem_cons.mp hx with rfl | hx'
      · obtain ⟨nw, he⟩ := hext2
        rw [he]
        exact List.mem_append_left _ hmems
      · exact hmem2 x hx'
    · obtain ⟨nw1, he1, _⟩ := hext1
      obtain ⟨nw2, he2⟩ := hext2
      exact ⟨nw1 ++ nw2, by rw [he2, he1, List.append_assoc]⟩

/-- Claim C1: over any person oracle whose Inclusion Set `A` holds only
normalized identifiers with normalized truthy parents, and whose in-`A`
parent links admit a strictly-decreasing rank function (acyclicity), the
Topological Emitter run over any in-`A` start list terminates
successfully at some fuel, prints no identifier twice, prints every
member of `A` that is a truthy father or mother of a printed person
strictly before that person, prints every start identifier, and prints
only members of `A`. -/
theorem emit_all_parents_first (presp : String → Option (List PBinding))
    (rcfg : RenderCfg) (A : List String) (rank : String → Nat) (starts : List String)
    (HA1 : ∀ q ∈ A, isNormFix q = true)
    (HA2 : ∀ q ∈ A, parentsOkAt presp q = true)
    (HA3 : ∀ q ∈ A, rankOkAt presp A rank q = true)
    (Hs : ∀ s ∈ starts, s ∈ A) :
    ∃ n st', emit_all presp rcfg A n starts ⟨⟨[], []⟩, []⟩ = some (.ok st') ∧
      (emittedQids st').Nodup ∧ parentsFirstIn presp A (emittedQids st') ∧
      (∀ s ∈ starts, s ∈ emittedQids st') ∧ ∀ x ∈ emittedQids st', x ∈ A := by
  obtain ⟨n, st', h, hinv, hmem, _⟩ :=
    emit_all_ranked presp rcfg A rank HA1 HA2 HA3 starts Hs ⟨⟨[], []⟩, []⟩
      ⟨List.nodup_nil, parentsFirstIn_nil presp A, by intro x hx; simp [emittedQids] at hx⟩
  exact ⟨n, st', h, hinv.1, hinv.2.1, hmem, hinv.2.2⟩

/-- Witness for C1: the three-generation chain (grandfather `Q1`, father
`Q2`, child `Q3`), started from the child alone, is emitted in the order
grandfather, father, child. -/
theorem emit_all_parents_first_witness :
    (∀ q ∈ ["Q1", "Q2", "Q3"], isNormFix q = true) ∧
    (∀ q ∈ ["Q1", "Q2", "Q3"], parentsOkAt oracleChain q = true) ∧
    (∀ q ∈ ["Q1", "Q2", "Q3"], rankOkAt oracleChain ["Q1", "Q2", "Q3"] chainRank q = true) ∧
    (∀ s ∈ ["Q3"], s ∈ ["Q1", "Q2", "Q3"]) ∧
    (∃ n st',
      emit_all oracleChain defaultRender ["Q1", "Q2", "Q3"] n ["Q3"] ⟨⟨[], []⟩, []⟩ =
        some (.ok st') ∧
      (emittedQids st').Nodup ∧
      parentsFirstIn oracleChain ["Q1", "Q2", "Q3"] (emittedQids st') ∧
      (∀ s ∈ ["Q3"], s ∈ emittedQids st') ∧
      ∀ x ∈ emittedQids st', x ∈ ["Q1", "Q2", "Q3"]) ∧
    (match emit_all oracleChain defaultRender ["Q1", "Q2", "Q3"] 20 ["Q3"] ⟨⟨[], []⟩, []⟩ with
     | some (.ok st) => emittedQids st
     | _ => []) = ["Q1", "Q2", "Q3"] :=
  ⟨by decide, by decide, by decide, by decide,
   emit_all_parents_first oracleChain defaultRender ["Q1", "Q2", "Q3"] chainRank ["Q3"]
     (by decide) (by decide) (by decide) (by decide),
   rfl⟩

/-- Unfolding `gather_ancestors` by one fuel step. -/
theorem gather_succ (presp : String → Option (List PBinding)) (incl : Bool) (maxD : Nat)
    (fuel : Nat) (qid : String) (depth : Nat) (st : AncState) :
    gather_ancestors presp incl maxD (fuel + 1) qid depth st =
      (match normalize_qid qid with
      | .error e => some (.error e)
      | .ok q =>
        if q ∈ st.visited then some (.ok st)
        else
          match get_person presp q with
          | .error e => some (.error e)
          | .ok person =>
            let st2 : AncState :=
              { visited := st.visited ++ [q],
                included :=
                  if depth = 0 then
                    (if incl then st.included ++ [q] else st.included)
                  else
                    (if is_alive_on person CUTOFF_DATE true then st.included ++ [q]
                    else st.included),
                trace := st.trace ++ [(q, depth)] }
            if maxD ≤ depth then some (.ok st2)
            else
              match (match pyOpt person.father_qid with
                     | some f => gather_ancestors presp incl maxD fuel f (depth + 1) st2
                     | none => some (.ok st2)) with
              | none => none
              | some (.error e) => some (.error e)
              | some (.ok st3) =>
                match pyOpt person.mother_qid with
                | some m => gather_ancestors presp incl maxD fuel m (depth + 1) st3
                | none => some (.ok st3)) := rfl

/-- A finished ancestor collection is preserved when the fuel grows. -/
theorem gather_fuel_mono (presp : String → Option (List PBinding)) (incl : Bool)
    (maxD : Nat) :
    ∀ (n : Nat) (q : String) (d : Nat) (st : AncState) (r : Except String AncState),
      gather_ancestors presp incl maxD n q d st = some r →
      gather_ancestors presp incl maxD (n + 1) q d st = some r := by
  intro n
  induction n with
  | zero => intro q d st r h; simp [gather_ancestors] at h
  | succ n ih =>
    intro q d st r h
    rw [gather_succ] at h
    rw [gather_succ]
    cases hn : normalize_qid q with
    | error e => simp only [hn] at h ⊢; exact h
    | ok q2 =>
      simp only [hn] at h ⊢
      by_cases hv : q2 ∈ st.visited
      · rw [if_pos hv] at h ⊢
        exact h
      · rw [if_neg hv] at h ⊢
        cases hp : get_person presp q2 with
        | error e => simp only [hp] at h ⊢; exact h
        | ok person =>
          simp only [hp] at h ⊢
          by_cases hd : maxD ≤ d
          · rw [if_pos hd] at h ⊢
            exact h
          · rw [if_neg hd] at h ⊢
            generalize hst2 :
              (⟨st.visited ++ [q2],
                if d = 0 then (if incl then st.included ++ [q2] else st.included)
                else (if is_alive_on person CUTOFF_DATE true then st.included ++ [q2]
                      else st.included),
                st.trace ++ [(q2, d)]⟩ : AncState) = stx at h ⊢
            cases hf : pyOpt person.father_qid with
            | some f =>
              simp only [hf] at h ⊢
              cases hr1 : gather_ancestors presp incl maxD n f (d + 1) stx with
              | none => simp only [hr1] at h; simp at h
              | some r1 =>
                simp only [hr1] at h
                simp only [ih f (d + 1) stx r1 hr1]
                cases r1 with
                | error e => exact h
                | ok st3 =>
                  cases hm : pyOpt person.mother_qid with
                  | some m =>
                    simp only [hm] at h ⊢
                    exact ih m (d + 1) st3 r h
                  | none =>
                    simp only [hm] at h ⊢
                    exact h
            | none =>
              simp only [hf] at h ⊢
              cases hm : pyOpt person.mother_qid with
              | some m =>
                simp only [hm] at h ⊢
                exact ih m (d + 1) stx r h
              | none =>
                simp only [hm] at h ⊢
                exact h

/-- A finished ancestor collection at fuel `m` finishes identically at
any larger fuel. -/
theorem gather_mono_le (presp : String → Option (List PBinding)) (incl : Bool)
    (maxD : Nat) {m n : Nat} (hmn : m ≤ n) :
    ∀ {q : String} {d : Nat} {st : AncState} {r : Except String AncState},
      gather_ancestors presp incl maxD m q d st = some r →
      gather_ancestors presp incl maxD n q d st = some r := by
  induction hmn with
  | refl => intro q d st r h; exact h
  | step h2 ih =>
    intro q d st r h
    exact gather_fuel_mono presp incl maxD _ q d st r (ih h)

/-- Over the cyclic oracle, emitting either member of the two-cycle from
any state containing neither exhausts every fuel: the Emitted Set is
extended only after the parent recursion returns, so it never breaks the
cycle. -/
theorem emitPF_cyc_none :
    ∀ (n : Nat) (st : EmitSt), "Q1" ∉ emittedQids st → "Q2" ∉ emittedQids st →
      emit_parents_first oracleCyc defaultRender ["Q1", "Q2"] n st "Q1" = none ∧
      emit_parents_first oracleCyc defaultRender ["Q1", "Q2"] n st "Q2" = none := by
  intro n
  induction n with
  | zero => intro st _ _; exact ⟨rfl, rfl⟩
  | succ n ih =>
    intro st h1 h2
    constructor
    · rw [emitPF_unfold]
      simp only [show normalize_qid "Q1" = Except.ok "Q1" from rfl]
      rw [if_neg h1]
      simp only [show get_person oracleCyc "Q1" =
        Except.ok (personOfBinding "Q1"
          (mkBinding (some "Alpha") (some "Q2") (some "1400-01-01") none)) from rfl]
      simp only [show pyOpt (personOfBinding "Q1"
          (mkBinding (some "Alpha") (some "Q2") (some "1400-01-01") none)).father_qid =
        some "Q2" from rfl]
      simp only [parentStep]
      rw [if_pos (show "Q2" ∈ ["Q1", "Q2"] by decide)]
      rw [(ih st h1 h2).2]
    · rw [emitPF_unfold]
      simp only [show normalize_qid "Q2" = Except.ok "Q2" from rfl]
      rw [if_neg h2]
      simp only [show get_person oracleCyc "Q2" =
        Except.ok (personOfBinding "Q2"
          (mkBinding (some "Beta") (some "Q1") (some "1400-01-01") none)) from rfl]
      simp only [show pyOpt (personOfBinding "Q2"
          (mkBinding (some "Beta") (some "Q1") (some "1400-01-01") none)).father_qid =
        some "Q1" from rfl]
      simp only [parentStep]
      rw [if_pos (show "Q1" ∈ ["Q1", "Q2"] by decide)]
      rw [(ih st h1 h2).1]

/-- The full pipeline run on the cyclic oracle returns `none` at every
fuel: either the ancestor collector runs out, or — once it stabilizes on
`\x7bQ1, Q2\x7d` — the emitter exhausts any remaining fuel inside the cycle. -/
theorem cyc_pipeline_diverges : pipeDiverges oracleCyc noChildren cfgPlain "Q1" := by
  intro fuel
  have hpipe : emit_person_with_ancestors_and_descendants oracleCyc noChildren cfgPlain
      "Q1" fuel =
      (match gather_ancestors oracleCyc true 6 fuel "Q1" 0 ⟨[], [], []⟩ with
       | none => none
       | some (.error e) => some (.error e)
       | some (.ok ancSt) =>
         match gather_descendants_alive oracleCyc noChildren true 6 "Q1" ⟨[], []⟩ with
         | .error e => some (.error e)
         | .ok descSt =>
           match ensure_fathers oracleCyc 0
               (ancSt.included ++ descSt.descendants.filter (fun q => q ∉ ancSt.included))
               (ancSt.included ++ descSt.descendants.filter (fun q => q ∉ ancSt.included)) with
           | .error e => some (.error e)
           | .ok allQids =>
             match emit_all oracleCyc defaultRender allQids fuel
                 ("Q1" :: sortStrs descSt.descendants) ⟨⟨[], []⟩, []⟩ with
             | none => none
             | some (.error e) => some (.error e)
             | some (.ok emitSt) =>
               some (.ok { includeRootEntry := true,
                           ancestor_qids := ancSt.included,
                           descendant_qids := descSt.descendants,
                           all_qids := allQids,
                           output := emitSt.out })) := rfl
  rw [hpipe]
  cases hg : gather_ancestors oracleCyc true 6 fuel "Q1" 0 ⟨[], [], []⟩ with
  | none => rfl
  | some r =>
    have h20 : gather_ancestors oracleCyc true 6 20 "Q1" 0 ⟨[], [], []⟩ =
        some (Except.ok cycAncSt) := rfl
    have hb1 : gather_ancestors oracleCyc true 6 (fuel + 20) "Q1" 0 ⟨[], [], []⟩ =
        some r :=
      gather_mono_le oracleCyc true 6 (Nat.le_add_right fuel 20) hg
    have hb2 : gather_ancestors oracleCyc true 6 (fuel + 20) "Q1" 0 ⟨[], [], []⟩ =
        some (Except.ok cycAncSt) :=
      gather_mono_le oracleCyc true 6 (Nat.le_add_left 20 fuel) h20
    rw [hb1] at hb2
    obtain rfl := Option.some.inj hb2
    show ((match emit_all oracleCyc defaultRender ["Q1", "Q2"] fuel ["Q1"] ⟨⟨[], []⟩, []⟩ with
          | none => none
          | some (Except.error e) => some (Except.error e)
          | some (Except.ok emitSt) =>
            some (Except.ok { includeRootEntry := true,
                              ancestor_qids := ["Q1", "Q2"],
                              descendant_qids := [],
                              all_qids := ["Q1", "Q2"],
                              output := emitSt.out })) :
        Option (Except String PipeResult)) = none
    rw [show emit_all oracleCyc defaultRender ["Q1", "Q2"] fuel ["Q1"] ⟨⟨[], []⟩, []⟩ =
        (match emit_parents_first oracleCyc defaultRender ["Q1", "Q2"] fuel
            ⟨⟨[], []⟩, []⟩ "Q1" with
         | none => none
         | some (.error e) => some (.error e)
         | some (.ok st') => emit_all oracleCyc defaultRender ["Q1", "Q2"] fuel [] st')
        from rfl]
    rw [(emitPF_cyc_none fuel ⟨⟨[], []⟩, []⟩ (by simp [emittedQids])
      (by simp [emittedQids])).1]

/-- Counterexample to Claim C1 as stated: (a) in the `oracleGap` run, `Q4`
is a member of the final Inclusion Set yet the Topological Emitter never
prints it — it is unreachable from the emission start points, so "every
person in the set is printed exactly once" fails; and (b) on cyclic
parent data the run does not terminate at any fuel — the Emitted Set is
extended only after the parent recursion returns, so it does not guard
against cycles. -/
theorem emit_missing_member_and_cycle_counterexample :
    (emit_person_with_ancestors_and_descendants oracleGap noChildren cfgPlain "Q1" 20 =
      some (.ok gapResult) ∧
     "Q4" ∈ gapResult.all_qids ∧
     gapResult.output.map Prod.fst = ["Q1"]) ∧
    pipeDiverges oracleCyc noChildren cfgPlain "Q1" :=
  ⟨⟨rfl, by decide, rfl⟩, cyc_pipeline_diverges⟩
